import Mathlib

/-
  Verification development for the open-addressing hash table in src/htable.c
  (cds repository).  The C code is shallowly embedded: the bucket-metadata
  region is a `List Nat` of markers (0 = HBUCKET_EMPTY, 1 = HBUCKET_TOMB,
  a value >= 2 = HBUCKET_USED doubling as the cached hash), the data region
  is a parallel `List (Option α)` of records (`none` models a record byte
  region that was never written), keys are an abstract type `κ`, and the
  caller-supplied capability pair is a structure of two functions.
  Unsigned-long arithmetic is `Nat` with explicit `% 2 ^ 64`; signed longs
  that can hold -1 (`mask`, `cap`) are `Int`.  `malloc` outcomes are an
  explicit `allocOk : Bool` oracle parameter on every operation that may
  rehash.  Pointers into the data region are modelled as slot indices.
  The C comparator returns 0 on a match; `comp` returns `true` on a match.
  C's `comp` applied to a never-written record byte region (possible only
  through `htable_enter_unsafe`, which stores no payload) reads
  indeterminate bytes; the embedding models that read as a non-match.
-/

set_option maxHeartbeats 1000000

/-- Word width of `unsigned long` on the 64-bit configuration (HTABLE_BITS). -/
def HTABLE_BITS : Nat := 64

/-- The odd multiplicative constant HTABLE_MULT for the 64-bit configuration. -/
def HTABLE_MULT : Nat := 0x93c467e37db0c7a3

/-- Modulus of `unsigned long` arithmetic. -/
def ULONG_MOD : Nat := 2 ^ 64

/-- HTABLE_SHIFT_MIN from src/htable.c. -/
def HTABLE_SHIFT_MIN : Nat := 3

/-- HTABLE_SIZE(shift) = 1L << shift. -/
def HTABLE_SIZE (shift : Nat) : Nat := 2 ^ shift

/-- HTABLE_CAP(shift) = (1L << (shift - 2)) * 3. -/
def HTABLE_CAP (shift : Nat) : Nat := 2 ^ (shift - 2) * 3

/-- errno constant ENOMEM (value 12 on Linux; the exact value is irrelevant). -/
def ENOMEM : Int := 12

/-- errno constant ENOSPC. -/
def ENOSPC : Int := 28

/-- errno constant ENOENT. -/
def ENOENT : Int := 2

/-- struct htable_interface: the caller-supplied hash/compare capability pair.
`hash key seed` models `hash(key, seed)`; `comp key record = true` models
`comp(key, entry) == 0` (a match). -/
structure HtableInterface (κ α : Type) where
  hash : κ → Nat → Nat
  comp : κ → α → Bool

/-- struct htable.  `data`/`table` are the two parallel regions of the single
combined allocation; the byte stride `inc` is abstracted away by storing
records of type `α` directly.  `mask` and `cap` are C `long`s that can hold
negative values (`mask = -1` in the unallocated state), hence `Int`. -/
structure Htable (κ α : Type) where
  data : List (Option α)
  table : List Nat
  len : Nat
  cap : Int
  mask : Int
  shift : Nat
  seed : Nat
  hasher : HtableInterface κ α

/-- The static all-EMPTY bucket array `table_empty` (size 1UL << HTABLE_SHIFT_MIN). -/
def table_empty : List Nat := List.replicate (2 ^ HTABLE_SHIFT_MIN) 0

variable {κ α : Type}

/-- htable_create: stores the configuration, allocates nothing.
(The `inc > 0` byte stride is abstracted away; `data = []` models `data = NULL`.) -/
def htable_create (seed : Nat) (hasher : HtableInterface κ α) : Htable κ α :=
  { data := [], table := table_empty, len := 0, cap := 0, mask := -1,
    shift := HTABLE_SHIFT_MIN, seed := seed, hasher := hasher }

/-- htable_destroy: frees the allocation and resets to the just-created state
(keeping `seed` and `hasher`, exactly as the C code does). -/
def htable_destroy (ht : Htable κ α) : Htable κ α :=
  { ht with
    data := [], table := table_empty, mask := -1,
    shift := HTABLE_SHIFT_MIN, len := 0, cap := 0 }

/-- ht_hashof: the caller's hash, truncated to unsigned long and floored to
HBUCKET_USED (= 2). -/
def ht_hashof (ht : Htable κ α) (key : κ) : Nat :=
  let h := ht.hasher.hash key ht.seed % ULONG_MOD
  if 2 ≤ h then h else 2

/-- ht_isequal: stored hash equal and comparator match.  A `none` record
(bytes never written) is modelled as never matching. -/
def ht_isequal (ht : Htable κ α) (idx : Nat) (h : Nat) (key : κ) : Bool :=
  ht.table.getD idx 0 == h &&
    (match ht.data.getD idx none with
     | some r => ht.hasher.comp key r
     | none => false)

/-- The initial probe index of HTABLE_PROBE_LOOP:
`((hash) * HTABLE_MULT) >> (HTABLE_BITS - shift)` in unsigned long arithmetic. -/
def ht_start (shift : Nat) (h : Nat) : Nat :=
  (h * HTABLE_MULT % ULONG_MOD) >>> (HTABLE_BITS - shift)

/-- One probe step of HTABLE_PROBE_LOOP: `(idx + ht__i) & mask` where the
increment `ht__i` was just incremented to `i`.  For a nonnegative `long`
value, `& mask` with `mask = -1` (all ones in two's complement) is the
identity and `& mask` with `mask ≥ 0` is the `Nat` bitwise AND. -/
def ht_step (idx i : Nat) (mask : Int) : Nat :=
  if mask < 0 then idx + i else (idx + i) &&& mask.toNat

/-- Result of a probing lookup: a slot index, NULL (not found), or the
unreachable `assert(0)` fall-through of HTABLE_PROBE_LOOP. -/
inductive FindRes where
  | found (i : Nat)
  | nofind
  | diverge
deriving DecidableEq, Repr

/-- Result of htable_enter / htable_enter_unsafe: `inserted i` is `*err = 0`
with a pointer to slot `i`; `already i` is `*err = -EEXIST`; `nomem` is
`*err = -ENOMEM`, NULL; `invalid` is `*err = -EINVAL`, NULL (htable_enter
only); `diverge` is the unreachable `assert(0)` fall-through. -/
inductive EnterRes where
  | inserted (i : Nat)
  | already (i : Nat)
  | nomem
  | invalid
  | diverge
deriving DecidableEq, Repr

/-- The probe loop of htable_find, with explicit probe counter `i` and fuel.
Fuel `HTABLE_SIZE shift` is enough to reach the first EMPTY slot whenever one
exists (the probe sequence covers all slots); running out of fuel models the
`assert(0)` fall-through. -/
def ht_findLoop (ht : Htable κ α) (h : Nat) (key : κ) :
    Nat → Nat → Nat → FindRes
  | _, _, 0 => .diverge
  | idx, i, fuel + 1 =>
    if ht.table.getD idx 0 = 0 then .nofind
    else if ht.table.getD idx 0 = 1 then
      ht_findLoop ht h key (ht_step idx (i + 1) ht.mask) (i + 1) fuel
    else if ht_isequal ht idx h key then .found idx
    else ht_findLoop ht h key (ht_step idx (i + 1) ht.mask) (i + 1) fuel

/-- htable_find. -/
def htable_find (ht : Htable κ α) (key : κ) : FindRes :=
  let h := ht_hashof ht key
  ht_findLoop ht h key (ht_start ht.shift h) 0 (HTABLE_SIZE ht.shift)

/-- The probe loop of htable_delete. -/
def ht_deleteLoop (ht : Htable κ α) (h : Nat) (key : κ) :
    Nat → Nat → Nat → Htable κ α × FindRes
  | _, _, 0 => (ht, .diverge)
  | idx, i, fuel + 1 =>
    if ht.table.getD idx 0 = 0 then (ht, .nofind)
    else if ht.table.getD idx 0 = 1 then
      ht_deleteLoop ht h key (ht_step idx (i + 1) ht.mask) (i + 1) fuel
    else if ht_isequal ht idx h key then
      ({ ht with table := ht.table.set idx 1, len := ht.len - 1 }, .found idx)
    else ht_deleteLoop ht h key (ht_step idx (i + 1) ht.mask) (i + 1) fuel

/-- htable_delete: on a match, marks the slot TOMB, decrements `len`, and
returns the slot index (the still-populated record pointer). -/
def htable_delete (ht : Htable κ α) (key : κ) : Htable κ α × FindRes :=
  let h := ht_hashof ht key
  ht_deleteLoop ht h key (ht_start ht.shift h) 0 (HTABLE_SIZE ht.shift)

/-- htable_delete_unsafe, with the pointer-arithmetic slot recovery
`(entry - data) / inc` replaced by the slot index itself. -/
def htable_delete_at (ht : Htable κ α) (i : Nat) : Htable κ α × Int :=
  if 2 ≤ ht.table.getD i 0 then
    ({ ht with table := ht.table.set i 1, len := ht.len - 1 }, 0)
  else (ht, -ENOENT)

/-- The probe loop of htable_enter_unsafe.  `jt` is the `long j` register
holding the first TOMB index seen (`none` models `j = -1`). -/
def ht_enterLoop (ht : Htable κ α) (h : Nat) (key : κ) :
    Nat → Nat → Option Nat → Nat → Htable κ α × EnterRes
  | _, _, _, 0 => (ht, .diverge)
  | idx, i, jt, fuel + 1 =>
    if ht.table.getD idx 0 = 0 then
      match jt with
      | none =>
        ({ ht with
           table := ht.table.set idx h, len := ht.len + 1,
           cap := ht.cap - 1 }, .inserted idx)
      | some j =>
        ({ ht with table := ht.table.set j h, len := ht.len + 1 }, .inserted j)
    else if ht.table.getD idx 0 = 1 then
      ht_enterLoop ht h key (ht_step idx (i + 1) ht.mask) (i + 1)
        (some (jt.getD idx)) fuel
    else if ht_isequal ht idx h key then (ht, .already idx)
    else ht_enterLoop ht h key (ht_step idx (i + 1) ht.mask) (i + 1) jt fuel

/-- The probing phase of htable_enter_unsafe (everything after the optional
rehash). -/
def ht_enterProbe (ht : Htable κ α) (key : κ) : Htable κ α × EnterRes :=
  let h := ht_hashof ht key
  ht_enterLoop ht h key (ht_start ht.shift h) 0 none (HTABLE_SIZE ht.shift)

/-- The placement loop inside htable_rehash: store hash `h` and record `r0`
at the first EMPTY slot of the probe sequence of `h` in the new table. -/
def ht_placeLoop (acc : Htable κ α) (h : Nat) (r0 : Option α) :
    Nat → Nat → Nat → Htable κ α
  | _, _, 0 => acc
  | idx, i, fuel + 1 =>
    if acc.table.getD idx 0 = 0 then
      { acc with table := acc.table.set idx h, data := acc.data.set idx r0 }
    else ht_placeLoop acc h r0 (ht_step idx (i + 1) acc.mask) (i + 1) fuel

/-- One reinsertion of htable_rehash's copy loop. -/
def ht_place (acc : Htable κ α) (h : Nat) (r0 : Option α) : Htable κ α :=
  ht_placeLoop acc h r0 (ht_start acc.shift h) 0 (HTABLE_SIZE acc.shift)

/-- One iteration of htable_rehash's copy loop over the old slot index `j`:
reinsert the slot into the new table `acc` when it is USED. -/
def ht_rehashStep (ht : Htable κ α) (acc : Htable κ α) (j : Nat) : Htable κ α :=
  if 2 ≤ ht.table.getD j 0 then
    ht_place acc (ht.table.getD j 0) (ht.data.getD j none)
  else acc

/-- The freshly allocated, zeroed table of htable_rehash before the copy loop. -/
def ht_rehashInit (ht : Htable κ α) (shift : Nat) : Htable κ α :=
  { data := List.replicate (HTABLE_SIZE shift) none,
    table := List.replicate (HTABLE_SIZE shift) 0,
    len := 0, cap := (HTABLE_CAP shift : Int),
    mask := (HTABLE_SIZE shift : Int) - 1,
    shift := shift, seed := ht.seed, hasher := ht.hasher }

/-- htable_rehash: allocate a zeroed table of size `2 ^ shift` (failure is the
`allocOk = false` oracle outcome, returning `-ENOMEM` with the table
untouched), reinsert every USED slot of the old table, then install the new
lengths and budget (`htnew.cap -= ht->len`). -/
def htable_rehash (ht : Htable κ α) (shift : Nat) (allocOk : Bool) :
    Htable κ α × Int :=
  if allocOk then
    let htnew := (List.range (ht.mask + 1).toNat).foldl (ht_rehashStep ht)
      (ht_rehashInit ht shift)
    ({ htnew with
       len := ht.len,
       cap := (HTABLE_CAP shift : Int) - (ht.len : Int) }, 0)
  else (ht, -ENOMEM)

/-- htable_enter_unsafe: rehash if the remaining-insert budget is exhausted
(growing by one shift level exactly when `len > HTABLE_CAP(shift)/2`), then
probe. -/
def htable_enter_raw (ht : Htable κ α) (key : κ) (allocOk : Bool) :
    Htable κ α × EnterRes :=
  if ht.cap = 0 then
    let s2 := ht.shift + (if HTABLE_CAP ht.shift / 2 < ht.len then 1 else 0)
    let r := htable_rehash ht s2 allocOk
    if r.2 = 0 then ht_enterProbe r.1 key else (r.1, .nomem)
  else ht_enterProbe ht key

/-- htable_enter: validate the template against the key, call
htable_enter_unsafe, and copy the template bytes into the slot on a fresh
insertion (`*err == 0`). -/
def htable_enter (ht : Htable κ α) (key : κ) (entry : α) (allocOk : Bool) :
    Htable κ α × EnterRes :=
  if ht.hasher.comp key entry then
    let r := htable_enter_raw ht key allocOk
    match r.2 with
    | .inserted i =>
      ({ r.1 with data := r.1.data.set i (some entry) }, .inserted i)
    | _ => r
  else (ht, .invalid)

/-- The least shift reached by htable_resize's `for (; HTABLE_CAP(shift) < cap;
shift++);` loop. -/
def ht_resizeLoop (cap shift : Nat) : Nat :=
  if hlt : HTABLE_CAP shift < cap then ht_resizeLoop cap (shift + 1) else shift
termination_by cap - shift
decreasing_by
  have h2 : shift - 2 < 2 ^ (shift - 2) := Nat.lt_two_pow (shift - 2)
  have h3 : HTABLE_CAP shift = 2 ^ (shift - 2) * 3 := rfl
  omega

/-- htable_resize. -/
def htable_resize (ht : Htable κ α) (cap : Nat) (allocOk : Bool) :
    Htable κ α × Int :=
  if ht.len ≤ cap then
    let s0 := if HTABLE_CAP ht.shift ≤ cap then ht.shift else HTABLE_SHIFT_MIN
    let s1 := ht_resizeLoop cap s0
    if s1 ≠ ht.shift then htable_rehash ht s1 allocOk else (ht, 0)
  else (ht, -ENOSPC)

/-- htable_len. -/
def htable_len (ht : Htable κ α) : Nat := ht.len

/-- htable_walk, modelled as the list of records passed to `action`, in
ascending slot order. -/
def htable_walkList (ht : Htable κ α) : List (Option α) :=
  (List.range (ht.mask + 1).toNat).filterMap
    (fun j => if 2 ≤ ht.table.getD j 0 then some (ht.data.getD j none) else none)

/-- htable_yield: index of the first USED slot at or after `iter`. -/
def htable_yield (ht : Htable κ α) (iter : Nat) : Option Nat :=
  ((List.range (ht.mask + 1).toNat).drop iter).find?
    (fun j => decide (2 ≤ ht.table.getD j 0))

/-- An operation on a hash table, for stating properties of operation
sequences.  `allocOk` is the allocation oracle for operations that may
rehash.  `enterRaw` is htable_enter_unsafe, `deleteAt` is
htable_delete_unsafe. -/
inductive HtOp (κ α : Type) where
  | enter (key : κ) (entry : α) (allocOk : Bool)
  | enterRaw (key : κ) (allocOk : Bool)
  | find (key : κ)
  | delete (key : κ)
  | deleteAt (i : Nat)
  | resize (cap : Nat) (allocOk : Bool)
  | walk
  | yield (iter : Nat)
  | destroy

/-- State transition of one operation. -/
def runOp (ht : Htable κ α) : HtOp κ α → Htable κ α
  | .enter k e ok => (htable_enter ht k e ok).1
  | .enterRaw k ok => (htable_enter_raw ht k ok).1
  | .find _ => ht
  | .delete k => (htable_delete ht k).1
  | .deleteAt i => (htable_delete_at ht i).1
  | .resize c ok => (htable_resize ht c ok).1
  | .walk => ht
  | .yield _ => ht
  | .destroy => htable_destroy ht

/-- State after a sequence of operations. -/
def runOps (ht : Htable κ α) (ops : List (HtOp κ α)) : Htable κ α :=
  ops.foldl runOp ht

/-- Number of USED slots of a marker region. -/
def usedCount (t : List Nat) : Nat := t.countP (fun m => decide (2 ≤ m))

/-- Number of non-EMPTY (USED or TOMB) slots of a marker region. -/
def nonEmptyCount (t : List Nat) : Nat := t.countP (fun m => decide (m ≠ 0))

/-- The k-th triangular number, the probe offset of probe k. -/
def triNum (k : Nat) : Nat := k * (k + 1) / 2

/-- The probe index sequence as generated by HTABLE_PROBE_LOOP's recurrence
(idx starts at `start`; step k adds k and masks with `2 ^ shift - 1`). -/
def probeIter (shift start : Nat) : Nat → Nat
  | 0 => start
  | k + 1 => ht_step (probeIter shift start k) (k + 1) ((2 ^ shift : Int) - 1)

/-- The probe index sequence as described by the specification:
probe k visits `(start + k (k + 1) / 2) mod size`. -/
def probeSpec (shift start k : Nat) : Nat := (start + triNum k) % 2 ^ shift

/-- Shape invariant of a table that owns a real allocation (`mask ≥ 0`):
parallel regions of size `2 ^ shift`, `mask = size - 1`, the budget equation
`cap = HTABLE_CAP shift - nonEmptyCount table` with `cap ≥ 0`, and `len`
counting the USED slots. -/
structure Alive (ht : Htable κ α) : Prop where
  tlen : ht.table.length = 2 ^ ht.shift
  dlen : ht.data.length = 2 ^ ht.shift
  hmask : ht.mask = (2 ^ ht.shift : Int) - 1
  hshift : HTABLE_SHIFT_MIN ≤ ht.shift
  hcap : ht.cap = (HTABLE_CAP ht.shift : Int) - (nonEmptyCount ht.table : Int)
  hcapnn : 0 ≤ ht.cap
  hlen : ht.len = usedCount ht.table

/-- The unallocated state shared by `htable_create` and `htable_destroy`
(the table points at the static `table_empty`). -/
def EmptyState (ht : Htable κ α) : Prop :=
  ht.table = table_empty ∧ ht.data = [] ∧ ht.len = 0 ∧ ht.cap = 0 ∧
    ht.mask = -1 ∧ ht.shift = HTABLE_SHIFT_MIN

/-- Every state reachable from `htable_create` is unallocated or `Alive`. -/
def HtValid (ht : Htable κ α) : Prop := EmptyState ht ∨ Alive ht

/-- All slots strictly before position `p` of the probe sequence of stored
hash `h` are non-EMPTY — probing for `h` cannot stop before position `p`. -/
def Reach (ht : Htable κ α) (h p : Nat) : Prop :=
  ∀ m, m < p → ht.table.getD (probeSpec ht.shift (ht_start ht.shift h) m) 0 ≠ 0

/-- Slot `i` holds key `key` with record `e`: USED with the key's floored
hash as marker, the record bytes written, and the slot reachable by probing. -/
def Stored (ht : Htable κ α) (key : κ) (e : α) (i : Nat) : Prop :=
  i < 2 ^ ht.shift ∧ ht.table.getD i 0 = ht_hashof ht key ∧
    ht.data.getD i none = some e ∧
    ∃ p, p < 2 ^ ht.shift ∧
      probeSpec ht.shift (ht_start ht.shift (ht_hashof ht key)) p = i ∧
      Reach ht (ht_hashof ht key) p

/-- Key/entry hygiene for a batch of insertions: each entry matches its own
key under the comparator, and no key matches any other pair's entry
(this is what "distinct keys" means through the comparator interface). -/
def GoodEntries (hasher : HtableInterface κ α) (ps : List (κ × α)) : Prop :=
  (∀ q ∈ ps, hasher.comp q.1 q.2 = true) ∧
  List.Pairwise
    (fun q r => hasher.comp q.1 r.2 = false ∧ hasher.comp r.1 q.2 = false) ps

/-- The table represents exactly the association list `ps`: a duplicate-free
slot list stores the pairs positionwise, and every USED slot is one of the
assigned slots. -/
def FullInv (ht : Htable κ α) (ps : List (κ × α)) : Prop :=
  Alive ht ∧ ∃ slots : List Nat,
    slots.Nodup ∧
    List.Forall₂ (fun q t => Stored ht q.1 q.2 t) ps slots ∧
    (∀ i, i < 2 ^ ht.shift → 2 ≤ ht.table.getD i 0 → i ∈ slots)

/-- Insert a batch of (key, entry) pairs through htable_enter, all
allocations succeeding. -/
def insertAll (ht : Htable κ α) (ps : List (κ × α)) : Htable κ α :=
  ps.foldl (fun h q => (htable_enter h q.1 q.2 true).1) ht

/-- A marker region without TOMB slots. -/
def noTomb (t : List Nat) : Prop := ∀ a ∈ t, a ≠ 1

/-- The state of htable_rehash's copy loop after reinserting the first `n`
old slots. -/
def rehashPrefix (ht : Htable κ α) (s2 n : Nat) : Htable κ α :=
  (List.range n).foldl (ht_rehashStep ht) (ht_rehashInit ht s2)

/-- A demonstration hash interface over `Nat` keys and records: the hash is
the key itself, a record matches the key it equals. -/
def demoIface : HtableInterface Nat Nat :=
  { hash := fun k _ => k, comp := fun k r => k == r }

/-- A small concrete table state: two entries inserted after creation. -/
def demoHt2 : Htable Nat Nat :=
  runOps (htable_create 0 demoIface) [HtOp.enter 10 10 true, HtOp.enter 20 20 true]

/-- Operations for a concrete scenario: six insertions filling the
remaining-insert budget of the initial size-8 table, then six deletions. -/
def c3ops : List (HtOp Nat Nat) :=
  ((List.range 6).map (fun i => HtOp.enter (10 * (i + 1)) (10 * (i + 1)) true)) ++
  ((List.range 6).map (fun i => HtOp.delete (10 * (i + 1))))

/-- The state after `c3ops`: `cap = 0`, `len = 0`, `shift = 3`, six TOMBs. -/
def c3st : Htable Nat Nat := runOps (htable_create 0 demoIface) c3ops

/-- The multiplicative inverse of HTABLE_MULT modulo `2 ^ 64`. -/
def c9inv : Nat := 9338755314358526987

/-- Target start slots for keys 1..10 of the tombstone scenario. -/
def c9slot (k : Nat) : Nat := [0, 1, 2, 3, 4, 0, 1, 2, 5, 6].getD (k - 1) 0

/-- A hash value whose multiplicative start index (at shift 3) is `s`. -/
def c9hval (s : Nat) : Nat :=
  (if s = 0 then 1 else s * 2 ^ 61) * c9inv % ULONG_MOD

/-- A hash interface steering each key of the tombstone scenario to a chosen
start slot. -/
def c9iface : HtableInterface Nat Nat :=
  { hash := fun k _ => c9hval (c9slot k), comp := fun k r => k == r }

/-- The tombstone-reclaim scenario with N = 5: insert keys 1..5, delete all
five, insert keys 6..10. -/
def c9ops : List (HtOp Nat Nat) :=
  ((List.range 5).map (fun i => HtOp.enter (i + 1) (i + 1) true)) ++
  ((List.range 5).map (fun i => HtOp.delete (i + 1))) ++
  ((List.range 5).map (fun i => HtOp.enter (i + 6) (i + 6) true))

/-- The final state of the tombstone-reclaim scenario. -/
def c9st : Htable Nat Nat := runOps (htable_create 0 c9iface) c9ops

/-- The state of the tombstone-reclaim scenario after the five deletions. -/
def c9mid : Htable Nat Nat :=
  runOps (htable_create 0 c9iface)
    (((List.range 5).map (fun i => HtOp.enter (i + 1) (i + 1) true)) ++
     ((List.range 5).map (fun i => HtOp.delete (i + 1))))

/-- Whether an operation is an insertion (htable_enter or
htable_enter_unsafe). -/
def isEnterOp : HtOp κ α → Bool
  | .enter _ _ _ => true
  | .enterRaw _ _ => true
  | _ => false

/-- Whether an operation belongs to an insert/delete/lookup scenario
(everything except htable_resize and htable_destroy). -/
def isScenarioOp : HtOp κ α → Bool
  | .resize _ _ => false
  | .destroy => false
  | _ => true

/-! ### Arithmetic of the triangular probe sequence -/

theorem triNum_mul_two (k : Nat) : triNum k * 2 = k * (k + 1) :=
  Nat.div_two_mul_two_of_even (Nat.even_mul_succ_self k)

theorem triNum_succ (k : Nat) : triNum (k + 1) = triNum k + (k + 1) := by
  have h1 := triNum_mul_two k
  have h2 := triNum_mul_two (k + 1)
  have h3 : (k + 1) * (k + 1 + 1) = k * (k + 1) + 2 * (k + 1) := by ring
  omega

theorem triNum_add_split (i d : Nat) :
    triNum (i + d) = triNum i + d * i + triNum d := by
  induction d with
  | zero => simp [triNum]
  | succ n ih =>
    have h1 := triNum_succ (i + n)
    have h2 := triNum_succ n
    have h4 : (n + 1) * i = n * i + i := by ring
    have h5 : triNum (i + (n + 1)) = triNum (i + n + 1) := rfl
    omega

theorem triNum_mod_eq_le (s i d : Nat) (hj : i + d < 2 ^ s)
    (h : triNum i % 2 ^ s = triNum (i + d) % 2 ^ s) : d = 0 := by
  by_contra hd0
  have hdpos : 0 < d := Nat.pos_of_ne_zero hd0
  have hsplit := triNum_add_split i d
  have hmono : triNum i ≤ triNum (i + d) := by omega
  have hdvd : 2 ^ s ∣ triNum (i + d) - triNum i := (Nat.modEq_iff_dvd' hmono).mp h
  have hdvd2 : 2 ^ s ∣ d * i + triNum d := by
    have h6 : triNum (i + d) - triNum i = d * i + triNum d := by omega
    rwa [h6] at hdvd
  have h7 : 2 * triNum d = d * (d + 1) := by
    have := triNum_mul_two d
    omega
  have hdvd3 : 2 ^ (s + 1) ∣ d * (2 * i + d + 1) := by
    obtain ⟨c, hc⟩ := hdvd2
    refine ⟨c, ?_⟩
    calc d * (2 * i + d + 1)
        = 2 * (d * i) + d * (d + 1) := by ring
      _ = 2 * (d * i) + 2 * triNum d := by omega
      _ = 2 * (d * i + triNum d) := by ring
      _ = 2 * (2 ^ s * c) := by rw [hc]
      _ = 2 ^ (s + 1) * c := by rw [pow_succ]; ring
  have h10 : 2 ^ (s + 1) = 2 * 2 ^ s := by rw [pow_succ]; ring
  rcases Nat.even_or_odd d with hev | hod
  · have hodd2 : Odd (2 * i + d + 1) := by
      rcases hev with ⟨m, hm⟩
      exact ⟨i + m, by omega⟩
    have hcop : Nat.Coprime (2 ^ (s + 1)) (2 * i + d + 1) :=
      Nat.Coprime.pow_left _ (Nat.coprime_two_left.mpr hodd2)
    have hdd : 2 ^ (s + 1) ∣ d := hcop.dvd_of_dvd_mul_right hdvd3
    have h11 : 2 ^ (s + 1) ≤ d := Nat.le_of_dvd hdpos hdd
    omega
  · have hcop : Nat.Coprime (2 ^ (s + 1)) d :=
      Nat.Coprime.pow_left _ (Nat.coprime_two_left.mpr hod)
    have hdd : 2 ^ (s + 1) ∣ 2 * i + d + 1 := hcop.dvd_of_dvd_mul_left hdvd3
    have h11 : 2 ^ (s + 1) ≤ 2 * i + d + 1 := Nat.le_of_dvd (by omega) hdd
    omega

theorem triNum_mod_inj (s i j : Nat) (hi : i < 2 ^ s) (hj : j < 2 ^ s)
    (h : triNum i % 2 ^ s = triNum j % 2 ^ s) : i = j := by
  rcases Nat.le_total i j with hle | hle
  · obtain ⟨d, rfl⟩ := Nat.le.dest hle
    have := triNum_mod_eq_le s i d hj h
    omega
  · obtain ⟨d, rfl⟩ := Nat.le.dest hle
    have := triNum_mod_eq_le s j d hi h.symm
    omega

theorem probeSpec_lt (s start k : Nat) : probeSpec s start k < 2 ^ s :=
  Nat.mod_lt _ (pow_pos (by norm_num) s)

theorem probeSpec_inj (s start i j : Nat) (hi : i < 2 ^ s) (hj : j < 2 ^ s)
    (h : probeSpec s start i = probeSpec s start j) : i = j := by
  have h1 : triNum i ≡ triNum j [MOD 2 ^ s] :=
    Nat.ModEq.add_left_cancel' start h
  exact triNum_mod_inj s i j hi hj h1

theorem probeSpec_surj (s start : Nat) :
    ∀ t, t < 2 ^ s → ∃ k, k < 2 ^ s ∧ probeSpec s start k = t := by
  intro t ht
  have hinj : Function.Injective
      (fun k : Fin (2 ^ s) => (⟨probeSpec s start k.val, probeSpec_lt s start k.val⟩ : Fin (2 ^ s))) := by
    intro a b hab
    have h2 : probeSpec s start a.val = probeSpec s start b.val := congrArg Fin.val hab
    exact Fin.ext (probeSpec_inj s start a.val b.val a.isLt b.isLt h2)
  have hsurj := Finite.injective_iff_surjective.mp hinj
  obtain ⟨k, hk⟩ := hsurj ⟨t, ht⟩
  exact ⟨k.val, k.isLt, congrArg Fin.val hk⟩

theorem ht_step_mask (idx i s : Nat) :
    ht_step idx i ((2 ^ s : Int) - 1) = (idx + i) % 2 ^ s := by
  unfold ht_step
  have h3 : (0 : Int) < 2 ^ s := pow_pos (by norm_num) s
  have h4 : ((2 : Int) ^ s) = ((2 ^ s : Nat) : Int) := by push_cast; ring
  have h1 : ¬ ((2 ^ s : Int) - 1 < 0) := by omega
  rw [if_neg h1]
  have h2 : ((2 ^ s : Int) - 1).toNat = 2 ^ s - 1 := by omega
  rw [h2, Nat.and_pow_two_sub_one_eq_mod]

theorem probeIter_eq_probeSpec (s start : Nat) (hs : start < 2 ^ s) (k : Nat) :
    probeIter s start k = probeSpec s start k := by
  induction k with
  | zero =>
    show start = (start + triNum 0) % 2 ^ s
    simp [triNum, Nat.mod_eq_of_lt hs]
  | succ n ih =>
    show ht_step (probeIter s start n) (n + 1) ((2 ^ s : Int) - 1) = _
    rw [ih, ht_step_mask]
    show (probeSpec s start n + (n + 1)) % 2 ^ s = probeSpec s start (n + 1)
    unfold probeSpec
    rw [Nat.mod_add_mod]
    congr 1
    have := triNum_succ n
    omega

theorem probeSpec_step (s start i : Nat) :
    ht_step (probeSpec s start i) (i + 1) ((2 ^ s : Int) - 1) =
      probeSpec s start (i + 1) := by
  rw [ht_step_mask]
  unfold probeSpec
  rw [Nat.mod_add_mod]
  congr 1
  have := triNum_succ i
  omega

theorem ht_start_lt (s h : Nat) : ht_start s h < 2 ^ s := by
  unfold ht_start
  rw [Nat.shiftRight_eq_div_pow]
  have hx : h * HTABLE_MULT % ULONG_MOD < 2 ^ 64 := by
    have h0 : 0 < ULONG_MOD := by decide
    have := Nat.mod_lt (h * HTABLE_MULT) h0
    simpa [ULONG_MOD] using this
  rcases Nat.le_total s 64 with hs | hs
  · have hpos : 0 < 2 ^ (HTABLE_BITS - s) := pow_pos (by norm_num) _
    rw [Nat.div_lt_iff_lt_mul hpos]
    have hmul : 2 ^ s * 2 ^ (HTABLE_BITS - s) = 2 ^ 64 := by
      rw [← pow_add]
      congr 1
      simp [HTABLE_BITS]
      omega
    rw [hmul]
    exact hx
  · have h64 : (2 : Nat) ^ 64 ≤ 2 ^ s := Nat.pow_le_pow_right (by norm_num) hs
    have hdiv : h * HTABLE_MULT % ULONG_MOD / 2 ^ (HTABLE_BITS - s) ≤
        h * HTABLE_MULT % ULONG_MOD := Nat.div_le_self _ _
    omega

theorem probeSpec_zero (s start : Nat) (hs : start < 2 ^ s) :
    probeSpec s start 0 = start := by
  unfold probeSpec triNum
  simp [Nat.mod_eq_of_lt hs]

theorem ht_findLoop_ne_diverge (ht : Htable κ α) (h : Nat) (key : κ) (start : Nat)
    (hm : ht.mask = (2 ^ ht.shift : Int) - 1) :
    ∀ fuel i,
      (∃ d, d < fuel ∧ ht.table.getD (probeSpec ht.shift start (i + d)) 0 = 0) →
      ht_findLoop ht h key (probeSpec ht.shift start i) i fuel ≠ FindRes.diverge := by
  intro fuel
  induction fuel with
  | zero =>
    intro i hex
    obtain ⟨d, hd, _⟩ := hex
    omega
  | succ n ih =>
    intro i hex
    obtain ⟨d, hd, hem⟩ := hex
    simp only [ht_findLoop]
    by_cases h0 : ht.table.getD (probeSpec ht.shift start i) 0 = 0
    · rw [if_pos h0]
      simp
    · rw [if_neg h0]
      have hd0 : d ≠ 0 := by
        intro hdz
        rw [hdz, Nat.add_zero] at hem
        exact h0 hem
      have hstep : ht_step (probeSpec ht.shift start i) (i + 1) ht.mask =
          probeSpec ht.shift start (i + 1) := by
        rw [hm]
        exact probeSpec_step ht.shift start i
      have hnext : ∃ d2, d2 < n ∧
          ht.table.getD (probeSpec ht.shift start (i + 1 + d2)) 0 = 0 := by
        refine ⟨d - 1, by omega, ?_⟩
        have h12 : i + 1 + (d - 1) = i + d := by omega
        rw [h12]
        exact hem
      by_cases h1 : ht.table.getD (probeSpec ht.shift start i) 0 = 1
      · rw [if_pos h1, hstep]
        exact ih (i + 1) hnext
      · rw [if_neg h1]
        by_cases h2 : ht_isequal ht (probeSpec ht.shift start i) h key = true
        · rw [if_pos h2]
          simp
        · rw [if_neg h2, hstep]
          exact ih (i + 1) hnext

theorem ht_deleteLoop_ne_diverge (ht : Htable κ α) (h : Nat) (key : κ)
    (start : Nat) (hm : ht.mask = (2 ^ ht.shift : Int) - 1) :
    ∀ fuel i,
      (∃ d, d < fuel ∧ ht.table.getD (probeSpec ht.shift start (i + d)) 0 = 0) →
      (ht_deleteLoop ht h key (probeSpec ht.shift start i) i fuel).2 ≠
        FindRes.diverge := by
  intro fuel
  induction fuel with
  | zero =>
    intro i hex
    obtain ⟨d, hd, _⟩ := hex
    omega
  | succ n ih =>
    intro i hex
    obtain ⟨d, hd, hem⟩ := hex
    simp only [ht_deleteLoop]
    by_cases h0 : ht.table.getD (probeSpec ht.shift start i) 0 = 0
    · rw [if_pos h0]
      simp
    · rw [if_neg h0]
      have hd0 : d ≠ 0 := by
        intro hdz
        rw [hdz, Nat.add_zero] at hem
        exact h0 hem
      have hstep : ht_step (probeSpec ht.shift start i) (i + 1) ht.mask =
          probeSpec ht.shift start (i + 1) := by
        rw [hm]
        exact probeSpec_step ht.shift start i
      have hnext : ∃ d2, d2 < n ∧
          ht.table.getD (probeSpec ht.shift start (i + 1 + d2)) 0 = 0 := by
        refine ⟨d - 1, by omega, ?_⟩
        have h12 : i + 1 + (d - 1) = i + d := by omega
        rw [h12]
        exact hem
      by_cases h1 : ht.table.getD (probeSpec ht.shift start i) 0 = 1
      · rw [if_pos h1, hstep]
        exact ih (i + 1) hnext
      · rw [if_neg h1]
        by_cases h2 : ht_isequal ht (probeSpec ht.shift start i) h key = true
        · rw [if_pos h2]
          simp
        · rw [if_neg h2, hstep]
          exact ih (i + 1) hnext

theorem ht_enterLoop_ne_diverge (ht : Htable κ α) (h : Nat) (key : κ)
    (start : Nat) (hm : ht.mask = (2 ^ ht.shift : Int) - 1) :
    ∀ fuel i jt,
      (∃ d, d < fuel ∧ ht.table.getD (probeSpec ht.shift start (i + d)) 0 = 0) →
      (ht_enterLoop ht h key (probeSpec ht.shift start i) i jt fuel).2 ≠
        EnterRes.diverge := by
  intro fuel
  induction fuel with
  | zero =>
    intro i jt hex
    obtain ⟨d, hd, _⟩ := hex
    omega
  | succ n ih =>
    intro i jt hex
    obtain ⟨d, hd, hem⟩ := hex
    simp only [ht_enterLoop]
    by_cases h0 : ht.table.getD (probeSpec ht.shift start i) 0 = 0
    · rw [if_pos h0]
      rcases jt with _ | j
      · simp
      · simp
    · rw [if_neg h0]
      have hd0 : d ≠ 0 := by
        intro hdz
        rw [hdz, Nat.add_zero] at hem
        exact h0 hem
      have hstep : ht_step (probeSpec ht.shift start i) (i + 1) ht.mask =
          probeSpec ht.shift start (i + 1) := by
        rw [hm]
        exact probeSpec_step ht.shift start i
      have hnext : ∃ d2, d2 < n ∧
          ht.table.getD (probeSpec ht.shift start (i + 1 + d2)) 0 = 0 := by
        refine ⟨d - 1, by omega, ?_⟩
        have h12 : i + 1 + (d - 1) = i + d := by omega
        rw [h12]
        exact hem
      by_cases h1 : ht.table.getD (probeSpec ht.shift start i) 0 = 1
      · rw [if_pos h1, hstep]
        exact ih (i + 1) _ hnext
      · rw [if_neg h1]
        by_cases h2 : ht_isequal ht (probeSpec ht.shift start i) h key = true
        · rw [if_pos h2]
          simp
        · rw [if_neg h2, hstep]
          exact ih (i + 1) _ hnext

/-- Claim C4: in every table state with at least one EMPTY slot (load factor
strictly below 100%), the probe loops of htable_enter_unsafe, htable_find and
htable_delete reach a verdict within `size` probes — the `assert(0)`
fall-through after each loop (modelled as the diverge result at fuel
exhaustion) is never executed. -/
theorem claim_C4 (ht : Htable κ α) (key : κ)
    (hm : ht.mask = (2 ^ ht.shift : Int) - 1)
    (hem : ∃ e, e < 2 ^ ht.shift ∧ ht.table.getD e 0 = 0) :
    htable_find ht key ≠ FindRes.diverge ∧
    (htable_delete ht key).2 ≠ FindRes.diverge ∧
    (ht_enterProbe ht key).2 ≠ EnterRes.diverge := by
  obtain ⟨e, he, hee⟩ := hem
  have hsl : ht_start ht.shift (ht_hashof ht key) < 2 ^ ht.shift :=
    ht_start_lt ht.shift (ht_hashof ht key)
  obtain ⟨k2, hk2, hpk⟩ :=
    probeSpec_surj ht.shift (ht_start ht.shift (ht_hashof ht key)) e he
  have hex : ∃ d, d < HTABLE_SIZE ht.shift ∧
      ht.table.getD
        (probeSpec ht.shift (ht_start ht.shift (ht_hashof ht key)) (0 + d)) 0 = 0 := by
    refine ⟨k2, hk2, ?_⟩
    rw [Nat.zero_add, hpk]
    exact hee
  refine ⟨?_, ?_, ?_⟩
  · show ht_findLoop ht (ht_hashof ht key) key
      (ht_start ht.shift (ht_hashof ht key)) 0 (HTABLE_SIZE ht.shift) ≠
        FindRes.diverge
    have h9 := ht_findLoop_ne_diverge ht (ht_hashof ht key) key
      (ht_start ht.shift (ht_hashof ht key)) hm (HTABLE_SIZE ht.shift) 0 hex
    rw [probeSpec_zero ht.shift (ht_start ht.shift (ht_hashof ht key)) hsl] at h9
    exact h9
  · show (ht_deleteLoop ht (ht_hashof ht key) key
      (ht_start ht.shift (ht_hashof ht key)) 0 (HTABLE_SIZE ht.shift)).2 ≠
        FindRes.diverge
    have h9 := ht_deleteLoop_ne_diverge ht (ht_hashof ht key) key
      (ht_start ht.shift (ht_hashof ht key)) hm (HTABLE_SIZE ht.shift) 0 hex
    rw [probeSpec_zero ht.shift (ht_start ht.shift (ht_hashof ht key)) hsl] at h9
    exact h9
  · show (ht_enterLoop ht (ht_hashof ht key) key
      (ht_start ht.shift (ht_hashof ht key)) 0 none (HTABLE_SIZE ht.shift)).2 ≠
        EnterRes.diverge
    have h9 := ht_enterLoop_ne_diverge ht (ht_hashof ht key) key
      (ht_start ht.shift (ht_hashof ht key)) hm (HTABLE_SIZE ht.shift) 0 none hex
    rw [probeSpec_zero ht.shift (ht_start ht.shift (ht_hashof ht key)) hsl] at h9
    exact h9

/-- Claim C5: for every start index and power-of-two size, the probe index
recurrence of HTABLE_PROBE_LOOP follows the triangular-number formula
`(start + k (k + 1) / 2) mod 2 ^ s`, and its first `2 ^ s` probes are
pairwise distinct and visit every slot. -/
theorem claim_C5 (s start : Nat) (hs : start < 2 ^ s) :
    (∀ k, probeIter s start k = (start + k * (k + 1) / 2) % 2 ^ s) ∧
    (∀ i j, i < 2 ^ s → j < 2 ^ s →
      probeIter s start i = probeIter s start j → i = j) ∧
    (∀ t, t < 2 ^ s → ∃ k, k < 2 ^ s ∧ probeIter s start k = t) := by
  have hiter : ∀ k, probeIter s start k = probeSpec s start k :=
    probeIter_eq_probeSpec s start hs
  refine ⟨?_, ?_, ?_⟩
  · intro k
    rw [hiter k]
    rfl
  · intro i j hi hj hij
    rw [hiter i, hiter j] at hij
    exact probeSpec_inj s start i j hi hj hij
  · intro t ht2
    obtain ⟨k, hk, hpk⟩ := probeSpec_surj s start t ht2
    refine ⟨k, hk, ?_⟩
    rw [hiter k]
    exact hpk

/-- Witness for C5 at a concrete instance. -/
theorem claim_C5_witness :
    5 < 2 ^ 3 ∧ probeIter 3 5 4 = (5 + 4 * (4 + 1) / 2) % 2 ^ 3 :=
  ⟨by decide, (claim_C5 3 5 (by decide)).1 4⟩

/-- Witness for C4 at a concrete instance. -/
theorem claim_C4_witness :
    demoHt2.mask = (2 ^ demoHt2.shift : Int) - 1 ∧
    htable_find demoHt2 7 ≠ FindRes.diverge :=
  ⟨by decide, (claim_C4 demoHt2 7 (by decide) ⟨0, by decide, by decide⟩).1⟩

/-! ### Counting and list helpers -/

theorem getD_set_self {β : Type} (t : List β) (i : Nat) (v d : β)
    (hi : i < t.length) : (t.set i v).getD i d = v := by
  rw [List.getD_eq_getElem (t.set i v) d (by simpa using hi)]
  exact List.getElem_set_self (by simpa using hi)

theorem getD_set_ne {β : Type} (t : List β) (i j : Nat) (v d : β)
    (hij : i ≠ j) : (t.set i v).getD j d = t.getD j d := by
  by_cases hj : j < t.length
  · rw [List.getD_eq_getElem (t.set i v) d (by simpa using hj),
      List.getD_eq_getElem t d hj]
    exact List.getElem_set_ne hij (by simpa using hj)
  · rw [List.getD_eq_default (t.set i v) d (by simpa using hj),
      List.getD_eq_default t d (by omega)]

theorem countP_set_add (p : Nat → Bool) (t : List Nat) (i v : Nat)
    (hi : i < t.length) :
    (t.set i v).countP p + (if p (t.getD i 0) then 1 else 0) =
      t.countP p + (if p v then 1 else 0) := by
  induction t generalizing i with
  | nil => simp at hi
  | cons a t2 ih =>
    cases i with
    | zero =>
      simp only [List.set, List.countP_cons, List.getD_cons_zero]
      omega
    | succ n =>
      have hn : n < t2.length := by simpa using hi
      have h2 := ih n hn
      simp only [List.set, List.countP_cons, List.getD_cons_succ]
      omega

theorem usedCount_le_nonEmptyCount (t : List Nat) :
    usedCount t ≤ nonEmptyCount t := by
  unfold usedCount nonEmptyCount
  induction t with
  | nil => simp
  | cons a t2 ih =>
    simp only [List.countP_cons]
    have hb : (if (decide (2 ≤ a)) = true then 1 else 0) ≤
        (if (decide (a ≠ 0)) = true then 1 else 0) := by
      by_cases ha : 2 ≤ a
      · have ha2 : a ≠ 0 := by omega
        simp [ha, ha2]
      · simp [ha]
    omega

theorem exists_empty_slot (t : List Nat) (hlt : nonEmptyCount t < t.length) :
    ∃ e, e < t.length ∧ t.getD e 0 = 0 := by
  by_contra hno
  push_neg at hno
  have hall : ∀ a ∈ t, (fun m => decide (m ≠ 0)) a = true := by
    intro a ha
    obtain ⟨n, hn, hna⟩ := List.mem_iff_getElem.mp ha
    have h2 : t.getD n 0 = a := by
      rw [List.getD_eq_getElem t 0 hn]
      exact hna
    have h3 := hno n hn
    rw [h2] at h3
    simpa using h3
  have := List.countP_eq_length.mpr hall
  unfold nonEmptyCount at hlt
  omega

theorem HTABLE_CAP_lt_size (s : Nat) (hs : 2 ≤ s) :
    HTABLE_CAP s < 2 ^ s := by
  have h1 : 2 ^ s = 2 ^ (s - 2) * 4 := by
    rw [show (4 : Nat) = 2 ^ 2 from rfl, ← pow_add]
    congr 1
    omega
  have h2 : 0 < 2 ^ (s - 2) := pow_pos (by norm_num) _
  unfold HTABLE_CAP
  omega

theorem HTABLE_CAP_mono {s s2 : Nat} (h : s ≤ s2) :
    HTABLE_CAP s ≤ HTABLE_CAP s2 := by
  unfold HTABLE_CAP
  have := Nat.pow_le_pow_right (show 1 ≤ 2 by norm_num) (Nat.sub_le_sub_right h 2)
  omega

theorem HTABLE_CAP_strict_mono {s s2 : Nat} (hs : 2 ≤ s) (h : s < s2) :
    HTABLE_CAP s < HTABLE_CAP s2 := by
  unfold HTABLE_CAP
  have h2 : s - 2 < s2 - 2 := by omega
  have := Nat.pow_lt_pow_right (show 1 < 2 by norm_num) h2
  omega

theorem countP_range_getD (t : List Nat) (p : Nat → Bool) :
    ∀ n, n ≤ t.length →
      (List.range n).countP (fun j => p (t.getD j 0)) = (t.take n).countP p := by
  intro n
  induction n with
  | zero => simp
  | succ m ih =>
    intro hm1
    have hm2 : m < t.length := by omega
    rw [List.range_succ, List.countP_append, List.take_succ, List.countP_append,
      ih (by omega)]
    congr 1
    have h3 : t.getD m 0 = t[m] := List.getD_eq_getElem t 0 hm2
    rw [List.getElem?_eq_getElem hm2]
    simp only [List.countP_cons, List.countP_nil, Option.toList_some]
    rw [h3]

/-! ### Rehash placement -/

theorem ht_placeLoop_spec (acc : Htable κ α) (h : Nat) (r0 : Option α)
    (start : Nat) (hm : acc.mask = (2 ^ acc.shift : Int) - 1) :
    ∀ fuel i,
      (∃ d, d < fuel ∧ acc.table.getD (probeSpec acc.shift start (i + d)) 0 = 0) →
      ∃ p, i ≤ p ∧ p < i + fuel ∧
        acc.table.getD (probeSpec acc.shift start p) 0 = 0 ∧
        (∀ m, i ≤ m → m < p → acc.table.getD (probeSpec acc.shift start m) 0 ≠ 0) ∧
        ht_placeLoop acc h r0 (probeSpec acc.shift start i) i fuel =
          { acc with table := acc.table.set (probeSpec acc.shift start p) h,
                     data := acc.data.set (probeSpec acc.shift start p) r0 } := by
  intro fuel
  induction fuel with
  | zero =>
    intro i hex
    obtain ⟨d, hd, _⟩ := hex
    omega
  | succ n ih =>
    intro i hex
    obtain ⟨d, hd, hem⟩ := hex
    simp only [ht_placeLoop]
    by_cases h0 : acc.table.getD (probeSpec acc.shift start i) 0 = 0
    · refine ⟨i, Nat.le_refl i, by omega, h0, ?_, ?_⟩
      · intro m h1 h2
        omega
      · rw [if_pos h0]
    · have hd0 : d ≠ 0 := by
        intro hdz
        rw [hdz, Nat.add_zero] at hem
        exact h0 hem
      have hstep : ht_step (probeSpec acc.shift start i) (i + 1) acc.mask =
          probeSpec acc.shift start (i + 1) := by
        rw [hm]
        exact probeSpec_step acc.shift start i
      have hnext : ∃ d2, d2 < n ∧
          acc.table.getD (probeSpec acc.shift start (i + 1 + d2)) 0 = 0 := by
        refine ⟨d - 1, by omega, ?_⟩
        have h12 : i + 1 + (d - 1) = i + d := by omega
        rw [h12]
        exact hem
      obtain ⟨p, hp1, hp2, hp3, hp4, hp5⟩ := ih (i + 1) hnext
      refine ⟨p, by omega, by omega, hp3, ?_, ?_⟩
      · intro m h1 h2
        rcases Nat.eq_or_lt_of_le h1 with h3 | h3
        · rw [← h3]
          exact h0
        · exact hp4 m h3 h2
      · rw [if_neg h0, hstep]
        exact hp5

theorem ht_place_spec (acc : Htable κ α) (h : Nat) (r0 : Option α)
    (hm : acc.mask = (2 ^ acc.shift : Int) - 1)
    (hem : ∃ e, e < 2 ^ acc.shift ∧ acc.table.getD e 0 = 0) :
    ∃ t p, p < 2 ^ acc.shift ∧ t < 2 ^ acc.shift ∧
      probeSpec acc.shift (ht_start acc.shift h) p = t ∧
      acc.table.getD t 0 = 0 ∧
      (∀ m, m < p →
        acc.table.getD (probeSpec acc.shift (ht_start acc.shift h) m) 0 ≠ 0) ∧
      ht_place acc h r0 =
        { acc with table := acc.table.set t h, data := acc.data.set t r0 } := by
  obtain ⟨e, he, hee⟩ := hem
  have hsl : ht_start acc.shift h < 2 ^ acc.shift := ht_start_lt acc.shift h
  obtain ⟨k2, hk2, hpk⟩ := probeSpec_surj acc.shift (ht_start acc.shift h) e he
  have hex : ∃ d, d < HTABLE_SIZE acc.shift ∧
      acc.table.getD (probeSpec acc.shift (ht_start acc.shift h) (0 + d)) 0 = 0 := by
    refine ⟨k2, hk2, ?_⟩
    rw [Nat.zero_add, hpk]
    exact hee
  obtain ⟨p, _, hp2, hp3, hp4, hp5⟩ :=
    ht_placeLoop_spec acc h r0 (ht_start acc.shift h) hm (HTABLE_SIZE acc.shift) 0 hex
  rw [probeSpec_zero acc.shift (ht_start acc.shift h) hsl] at hp5
  refine ⟨probeSpec acc.shift (ht_start acc.shift h) p, p, by
    simpa using hp2, probeSpec_lt acc.shift (ht_start acc.shift h) p, rfl, hp3, ?_, ?_⟩
  · intro m hmp
    exact hp4 m (Nat.zero_le m) hmp
  · exact hp5

theorem noTomb_counts (t : List Nat) (hnt : noTomb t) :
    nonEmptyCount t = usedCount t := by
  unfold nonEmptyCount usedCount
  apply List.countP_congr
  intro a ha
  have h1 := hnt a ha
  by_cases h0 : a = 0
  · simp [h0]
  · have h2 : 2 ≤ a := by omega
    simp [h0, h2]

theorem rehash_fold_lite (ht : Htable κ α) (s2 : Nat) (hs2 : 2 ≤ s2) :
    ∀ (js : List Nat) (acc : Htable κ α),
      acc.shift = s2 →
      acc.mask = (2 ^ s2 : Int) - 1 →
      acc.table.length = 2 ^ s2 →
      acc.data.length = 2 ^ s2 →
      noTomb acc.table →
      usedCount acc.table +
        js.countP (fun j => decide (2 ≤ ht.table.getD j 0)) ≤ HTABLE_CAP s2 →
      ((js.foldl (ht_rehashStep ht) acc).shift = s2 ∧
       (js.foldl (ht_rehashStep ht) acc).mask = (2 ^ s2 : Int) - 1 ∧
       (js.foldl (ht_rehashStep ht) acc).table.length = 2 ^ s2 ∧
       (js.foldl (ht_rehashStep ht) acc).data.length = 2 ^ s2 ∧
       noTomb (js.foldl (ht_rehashStep ht) acc).table ∧
       usedCount (js.foldl (ht_rehashStep ht) acc).table =
         usedCount acc.table +
           js.countP (fun j => decide (2 ≤ ht.table.getD j 0)) ∧
       (js.foldl (ht_rehashStep ht) acc).len = acc.len ∧
       (js.foldl (ht_rehashStep ht) acc).cap = acc.cap ∧
       (js.foldl (ht_rehashStep ht) acc).seed = acc.seed ∧
       (js.foldl (ht_rehashStep ht) acc).hasher = acc.hasher) := by
  intro js
  induction js with
  | nil =>
    intro acc h1 h2 h3 h4 h5 h6
    exact ⟨h1, h2, h3, h4, h5, by simp, rfl, rfl, rfl, rfl⟩
  | cons j js2 ih =>
    intro acc h1 h2 h3 h4 h5 h6
    rw [List.foldl_cons]
    by_cases hg : 2 ≤ ht.table.getD j 0
    · have hc1 : (List.countP (fun j => decide (2 ≤ ht.table.getD j 0)) (j :: js2)) =
          (List.countP (fun j => decide (2 ≤ ht.table.getD j 0)) js2) + 1 := by
        rw [List.countP_cons]
        simp only [decide_eq_true_eq]
        rw [if_pos hg]
      have hne : nonEmptyCount acc.table = usedCount acc.table := noTomb_counts _ h5
      have hem : ∃ e, e < 2 ^ acc.shift ∧ acc.table.getD e 0 = 0 := by
        have hlt : nonEmptyCount acc.table < acc.table.length := by
          rw [hne, h3]
          rw [hc1] at h6
          have := HTABLE_CAP_lt_size s2 hs2
          omega
        obtain ⟨e, he1, he2⟩ := exists_empty_slot acc.table hlt
        refine ⟨e, ?_, he2⟩
        rw [h1]
        omega
      have hmm : acc.mask = (2 ^ acc.shift : Int) - 1 := by
        rw [h1]
        exact h2
      obtain ⟨t, p, hp1, ht1, hpt, htempty, hreach, heq⟩ :=
        ht_place_spec acc (ht.table.getD j 0) (ht.data.getD j none) hmm hem
      have hstep : ht_rehashStep ht acc j =
          { acc with table := acc.table.set t (ht.table.getD j 0),
                     data := acc.data.set t (ht.data.getD j none) } := by
        unfold ht_rehashStep
        rw [if_pos hg]
        exact heq
      rw [hstep]
      have htlen : t < acc.table.length := by
        rw [h3]
        rw [h1] at ht1
        exact ht1
      have hused : usedCount (acc.table.set t (ht.table.getD j 0)) =
          usedCount acc.table + 1 := by
        have h9 := countP_set_add (fun m => decide (2 ≤ m)) acc.table t
          (ht.table.getD j 0) htlen
        rw [htempty] at h9
        unfold usedCount
        simp only [decide_eq_true_eq] at h9 ⊢
        rw [if_pos hg, if_neg (by omega : ¬ 2 ≤ 0)] at h9
        omega
      obtain ⟨f1, f2, f3, f4, f5, f6, f7, f8, f9, f10⟩ := ih
        { acc with table := acc.table.set t (ht.table.getD j 0),
                   data := acc.data.set t (ht.data.getD j none) }
        h1 h2 (by simpa using h3) (by simpa using h4)
        (by
          intro a ha
          rcases List.mem_or_eq_of_mem_set ha with h7 | h7
          · exact h5 a h7
          · omega)
        (by
          show usedCount (acc.table.set t (ht.table.getD j 0)) + _ ≤ _
          rw [hused]
          rw [hc1] at h6
          omega)
      refine ⟨f1, f2, f3, f4, f5, ?_, f7, f8, f9, f10⟩
      rw [f6]
      show usedCount (acc.table.set t (ht.table.getD j 0)) + _ =
        usedCount acc.table + _
      rw [hused, hc1]
      omega
    · have hstep : ht_rehashStep ht acc j = acc := by
        unfold ht_rehashStep
        rw [if_neg hg]
      rw [hstep]
      have hc1 : (List.countP (fun j => decide (2 ≤ ht.table.getD j 0)) (j :: js2)) =
          (List.countP (fun j => decide (2 ≤ ht.table.getD j 0)) js2) := by
        rw [List.countP_cons]
        simp only [decide_eq_true_eq]
        rw [if_neg hg]
        omega
      obtain ⟨f1, f2, f3, f4, f5, f6, f7, f8, f9, f10⟩ :=
        ih acc h1 h2 h3 h4 h5 (by rw [hc1] at h6; omega)
      refine ⟨f1, f2, f3, f4, f5, ?_, f7, f8, f9, f10⟩
      rw [f6, hc1]

theorem htable_rehash_alive (ht : Htable κ α) (s2 : Nat)
    (hs2 : HTABLE_SHIFT_MIN ≤ s2)
    (hcnt : (List.range (ht.mask + 1).toNat).countP
      (fun j => decide (2 ≤ ht.table.getD j 0)) = ht.len)
    (hlc : ht.len ≤ HTABLE_CAP s2) :
    Alive (htable_rehash ht s2 true).1 ∧
    (htable_rehash ht s2 true).1.shift = s2 ∧
    (htable_rehash ht s2 true).1.len = ht.len ∧
    noTomb (htable_rehash ht s2 true).1.table ∧
    nonEmptyCount (htable_rehash ht s2 true).1.table = ht.len ∧
    (htable_rehash ht s2 true).1.seed = ht.seed ∧
    (htable_rehash ht s2 true).1.hasher = ht.hasher := by
  have hs2b : 2 ≤ s2 := by
    unfold HTABLE_SHIFT_MIN at hs2
    omega
  have hin1 : (ht_rehashInit ht s2).shift = s2 := rfl
  have hin2 : (ht_rehashInit ht s2).mask = (2 ^ s2 : Int) - 1 := by
    show ((HTABLE_SIZE s2 : Nat) : Int) - 1 = (2 ^ s2 : Int) - 1
    unfold HTABLE_SIZE
    push_cast
    ring
  have hin3 : (ht_rehashInit ht s2).table.length = 2 ^ s2 := by
    simp [ht_rehashInit, HTABLE_SIZE]
  have hin4 : (ht_rehashInit ht s2).data.length = 2 ^ s2 := by
    simp [ht_rehashInit, HTABLE_SIZE]
  have hin5 : noTomb (ht_rehashInit ht s2).table := by
    intro a ha
    have h7 := List.eq_of_mem_replicate ha
    omega
  have hin6 : usedCount (ht_rehashInit ht s2).table = 0 := by
    unfold usedCount
    apply List.countP_eq_zero.mpr
    intro a ha
    have h7 := List.eq_of_mem_replicate ha
    subst h7
    simp
  obtain ⟨f1, f2, f3, f4, f5, f6, f7, f8, f9, f10⟩ :=
    rehash_fold_lite ht s2 hs2b (List.range (ht.mask + 1).toNat)
      (ht_rehashInit ht s2) hin1 hin2 hin3 hin4 hin5
      (by rw [hin6, hcnt]; omega)
  have hd : (htable_rehash ht s2 true).1 =
      { (List.range (ht.mask + 1).toNat).foldl (ht_rehashStep ht)
          (ht_rehashInit ht s2) with
        len := ht.len,
        cap := (HTABLE_CAP s2 : Int) - (ht.len : Int) } := rfl
  have hused2 : usedCount ((htable_rehash ht s2 true).1).table = ht.len := by
    rw [hd]
    show usedCount ((List.range (ht.mask + 1).toNat).foldl (ht_rehashStep ht)
      (ht_rehashInit ht s2)).table = ht.len
    rw [f6, hin6, hcnt]
    omega
  have hnt2 : noTomb ((htable_rehash ht s2 true).1).table := by
    rw [hd]
    exact f5
  have hne2 : nonEmptyCount ((htable_rehash ht s2 true).1).table = ht.len := by
    rw [noTomb_counts _ hnt2]
    exact hused2
  have hsh2 : (htable_rehash ht s2 true).1.shift = s2 := by
    rw [hd]
    exact f1
  refine ⟨?_, hsh2, by rw [hd], hnt2, hne2, by rw [hd]; exact f9, by rw [hd]; exact f10⟩
  refine ⟨?_, ?_, ?_, ?_, ?_, ?_, ?_⟩
  · rw [hsh2]
    rw [hd]
    exact f3
  · rw [hsh2]
    rw [hd]
    exact f4
  · rw [hsh2]
    rw [hd]
    exact f2
  · rw [hsh2]
    exact hs2
  · rw [hsh2, hne2]
    rw [hd]
  · rw [hd]
    show (0 : Int) ≤ (HTABLE_CAP s2 : Int) - (ht.len : Int)
    have := hlc
    omega
  · rw [hused2]
    rw [hd]

theorem ht_resizeLoop_ge (c s : Nat) : s ≤ ht_resizeLoop c s := by
  induction s using ht_resizeLoop.induct c with
  | case1 x hlt ih =>
    rw [ht_resizeLoop, dif_pos hlt]
    omega
  | case2 x hge =>
    rw [ht_resizeLoop, dif_neg hge]

theorem ht_resizeLoop_cap_ge (c s : Nat) : c ≤ HTABLE_CAP (ht_resizeLoop c s) := by
  induction s using ht_resizeLoop.induct c with
  | case1 x hlt ih =>
    rw [ht_resizeLoop, dif_pos hlt]
    exact ih
  | case2 x hge =>
    rw [ht_resizeLoop, dif_neg hge]
    omega

theorem ht_resizeLoop_min (c s : Nat) :
    ∀ s3, s ≤ s3 → c ≤ HTABLE_CAP s3 → ht_resizeLoop c s ≤ s3 := by
  induction s using ht_resizeLoop.induct c with
  | case1 x hlt ih =>
    intro s3 h1 h2
    rw [ht_resizeLoop, dif_pos hlt]
    apply ih
    · rcases Nat.eq_or_lt_of_le h1 with h3 | h3
      · subst h3
        omega
      · omega
    · exact h2
  | case2 x hge =>
    intro s3 h1 h2
    rw [ht_resizeLoop, dif_neg hge]
    exact h1

theorem table_empty_getD (j : Nat) : table_empty.getD j 0 = 0 := by
  unfold table_empty
  by_cases hj : j < (List.replicate (2 ^ HTABLE_SHIFT_MIN) 0).length
  · rw [List.getD_eq_getElem _ 0 hj]
    simp
  · rw [List.getD_eq_default _ 0 (by omega)]

theorem ht_hashof_ge_two (ht : Htable κ α) (key : κ) : 2 ≤ ht_hashof ht key := by
  unfold ht_hashof
  by_cases h2 : 2 ≤ ht.hasher.hash key ht.seed % ULONG_MOD
  · simp [h2]
  · simp [h2]

theorem ht_findLoop_first_empty (ht : Htable κ α) (h : Nat) (key : κ)
    (idx i fuel : Nat) (hf : fuel ≠ 0) (h0 : ht.table.getD idx 0 = 0) :
    ht_findLoop ht h key idx i fuel = FindRes.nofind := by
  cases fuel with
  | zero => omega
  | succ n =>
    simp only [ht_findLoop]
    rw [if_pos h0]

theorem ht_deleteLoop_first_empty (ht : Htable κ α) (h : Nat) (key : κ)
    (idx i fuel : Nat) (hf : fuel ≠ 0) (h0 : ht.table.getD idx 0 = 0) :
    ht_deleteLoop ht h key idx i fuel = (ht, FindRes.nofind) := by
  cases fuel with
  | zero => omega
  | succ n =>
    simp only [ht_deleteLoop]
    rw [if_pos h0]

theorem ht_enterLoop_cases (ht : Htable κ α) (h : Nat) (key : κ)
    (hm : ht.mask = (2 ^ ht.shift : Int) - 1) :
    ∀ fuel idx i jt,
      idx < 2 ^ ht.shift →
      (jt = none ∨ ∃ j, jt = some j ∧ j < 2 ^ ht.shift ∧ ht.table.getD j 0 = 1) →
      (ht_enterLoop ht h key idx i jt fuel = (ht, EnterRes.diverge)) ∨
      (∃ i2, ht_enterLoop ht h key idx i jt fuel = (ht, EnterRes.already i2)) ∨
      (∃ t, t < 2 ^ ht.shift ∧ ht.table.getD t 0 = 0 ∧
        ht_enterLoop ht h key idx i jt fuel =
          ({ ht with
             table := ht.table.set t h, len := ht.len + 1,
             cap := ht.cap - 1 }, EnterRes.inserted t)) ∨
      (∃ t, t < 2 ^ ht.shift ∧ ht.table.getD t 0 = 1 ∧
        ht_enterLoop ht h key idx i jt fuel =
          ({ ht with table := ht.table.set t h, len := ht.len + 1 },
            EnterRes.inserted t)) := by
  intro fuel
  induction fuel with
  | zero =>
    intro idx i jt hidx hjt
    left
    rfl
  | succ n ih =>
    intro idx i jt hidx hjt
    simp only [ht_enterLoop]
    by_cases h0 : ht.table.getD idx 0 = 0
    · rw [if_pos h0]
      rcases hjt with hjn | ⟨j, hjs, hjlt, hjmark⟩
      · subst hjn
        right; right; left
        exact ⟨idx, hidx, h0, rfl⟩
      · subst hjs
        right; right; right
        exact ⟨j, hjlt, hjmark, rfl⟩
    · rw [if_neg h0]
      have hlt2 : ht_step idx (i + 1) ht.mask < 2 ^ ht.shift := by
        rw [hm, ht_step_mask]
        exact Nat.mod_lt _ (pow_pos (by norm_num) _)
      by_cases h1 : ht.table.getD idx 0 = 1
      · rw [if_pos h1]
        apply ih
        · exact hlt2
        · right
          rcases hjt with hjn | ⟨j, hjs, hjlt, hjmark⟩
          · subst hjn
            exact ⟨idx, rfl, hidx, h1⟩
          · subst hjs
            exact ⟨j, rfl, hjlt, hjmark⟩
      · rw [if_neg h1]
        by_cases h2 : ht_isequal ht idx h key = true
        · rw [if_pos h2]
          right; left
          exact ⟨idx, rfl⟩
        · rw [if_neg h2]
          exact ih (ht_step idx (i + 1) ht.mask) (i + 1) jt hlt2 hjt

theorem ht_deleteLoop_cases (ht : Htable κ α) (h : Nat) (key : κ)
    (hm : ht.mask = (2 ^ ht.shift : Int) - 1) :
    ∀ fuel idx i,
      idx < 2 ^ ht.shift →
      (ht_deleteLoop ht h key idx i fuel = (ht, FindRes.nofind)) ∨
      (ht_deleteLoop ht h key idx i fuel = (ht, FindRes.diverge)) ∨
      (∃ t, t < 2 ^ ht.shift ∧ 2 ≤ ht.table.getD t 0 ∧
        ht_isequal ht t h key = true ∧
        ht_deleteLoop ht h key idx i fuel =
          ({ ht with table := ht.table.set t 1, len := ht.len - 1 },
            FindRes.found t)) := by
  intro fuel
  induction fuel with
  | zero =>
    intro idx i hidx
    right; left
    rfl
  | succ n ih =>
    intro idx i hidx
    simp only [ht_deleteLoop]
    by_cases h0 : ht.table.getD idx 0 = 0
    · rw [if_pos h0]
      left
      rfl
    · rw [if_neg h0]
      have hlt2 : ht_step idx (i + 1) ht.mask < 2 ^ ht.shift := by
        rw [hm, ht_step_mask]
        exact Nat.mod_lt _ (pow_pos (by norm_num) _)
      by_cases h1 : ht.table.getD idx 0 = 1
      · rw [if_pos h1]
        exact ih (ht_step idx (i + 1) ht.mask) (i + 1) hlt2
      · rw [if_neg h1]
        by_cases h2 : ht_isequal ht idx h key = true
        · rw [if_pos h2]
          right; right
          exact ⟨idx, hidx, by omega, h2, rfl⟩
        · rw [if_neg h2]
          exact ih (ht_step idx (i + 1) ht.mask) (i + 1) hlt2

theorem ht_enterProbe_alive (ht : Htable κ α) (key : κ) (hA : Alive ht)
    (hpos : 0 < ht.cap) :
    Alive (ht_enterProbe ht key).1 ∧
    (ht_enterProbe ht key).1.shift = ht.shift ∧
    (ht_enterProbe ht key).1.len ≤ ht.len + 1 ∧
    nonEmptyCount (ht_enterProbe ht key).1.table ≤ nonEmptyCount ht.table + 1 := by
  have hde : ht_enterProbe ht key =
      ht_enterLoop ht (ht_hashof ht key) key
        (ht_start ht.shift (ht_hashof ht key)) 0 none (HTABLE_SIZE ht.shift) := rfl
  have hh2 : 2 ≤ ht_hashof ht key := ht_hashof_ge_two ht key
  have hcases := ht_enterLoop_cases ht (ht_hashof ht key) key hA.hmask
    (HTABLE_SIZE ht.shift) (ht_start ht.shift (ht_hashof ht key)) 0 none
    (ht_start_lt ht.shift (ht_hashof ht key)) (Or.inl rfl)
  rcases hcases with hc | ⟨i2, hc⟩ | ⟨t, htl, hmk, hc⟩ | ⟨t, htl, hmk, hc⟩
  · rw [hde, hc]
    exact ⟨hA, rfl, Nat.le_succ ht.len, Nat.le_succ (nonEmptyCount ht.table)⟩
  · rw [hde, hc]
    exact ⟨hA, rfl, Nat.le_succ ht.len, Nat.le_succ (nonEmptyCount ht.table)⟩
  · rw [hde, hc]
    have htlen : t < ht.table.length := by
      rw [hA.tlen]
      exact htl
    have hcnt := countP_set_add (fun m => decide (2 ≤ m)) ht.table t
      (ht_hashof ht key) htlen
    rw [hmk] at hcnt
    simp only [decide_eq_true_eq] at hcnt
    rw [if_neg (by omega : ¬ 2 ≤ 0), if_pos hh2] at hcnt
    have hcnt2 := countP_set_add (fun m => decide (m ≠ 0)) ht.table t
      (ht_hashof ht key) htlen
    rw [hmk] at hcnt2
    simp only [decide_eq_true_eq] at hcnt2
    rw [if_neg (by omega : ¬ (0 : Nat) ≠ 0), if_pos (by omega : (ht_hashof ht key) ≠ 0)] at hcnt2
    have hused : usedCount (ht.table.set t (ht_hashof ht key)) = usedCount ht.table + 1 := by
      unfold usedCount
      omega
    have hnon : nonEmptyCount (ht.table.set t (ht_hashof ht key)) = nonEmptyCount ht.table + 1 := by
      unfold nonEmptyCount
      omega
    refine ⟨⟨?_, ?_, ?_, ?_, ?_, ?_, ?_⟩, rfl, by
      show ht.len + 1 ≤ ht.len + 1
      omega, by
      show nonEmptyCount (ht.table.set t (ht_hashof ht key)) ≤ nonEmptyCount ht.table + 1
      omega⟩
    · show (ht.table.set t (ht_hashof ht key)).length = 2 ^ ht.shift
      rw [List.length_set]
      exact hA.tlen
    · exact hA.dlen
    · exact hA.hmask
    · exact hA.hshift
    · show ht.cap - 1 = (HTABLE_CAP ht.shift : Int) -
        (nonEmptyCount (ht.table.set t (ht_hashof ht key)) : Int)
      have h8 := hA.hcap
      omega
    · show (0 : Int) ≤ ht.cap - 1
      omega
    · show ht.len + 1 = usedCount (ht.table.set t (ht_hashof ht key))
      have h8 := hA.hlen
      omega
  · rw [hde, hc]
    have htlen : t < ht.table.length := by
      rw [hA.tlen]
      exact htl
    have hcnt := countP_set_add (fun m => decide (2 ≤ m)) ht.table t
      (ht_hashof ht key) htlen
    rw [hmk] at hcnt
    simp only [decide_eq_true_eq] at hcnt
    rw [if_neg (by omega : ¬ 2 ≤ 1), if_pos hh2] at hcnt
    have hcnt2 := countP_set_add (fun m => decide (m ≠ 0)) ht.table t
      (ht_hashof ht key) htlen
    rw [hmk] at hcnt2
    simp only [decide_eq_true_eq] at hcnt2
    rw [if_pos (by omega : (1 : Nat) ≠ 0), if_pos (by omega : (ht_hashof ht key) ≠ 0)] at hcnt2
    have hused : usedCount (ht.table.set t (ht_hashof ht key)) = usedCount ht.table + 1 := by
      unfold usedCount
      omega
    have hnon : nonEmptyCount (ht.table.set t (ht_hashof ht key)) = nonEmptyCount ht.table := by
      unfold nonEmptyCount
      omega
    refine ⟨⟨?_, ?_, ?_, ?_, ?_, ?_, ?_⟩, rfl, by
      show ht.len + 1 ≤ ht.len + 1
      omega, by
      show nonEmptyCount (ht.table.set t (ht_hashof ht key)) ≤ nonEmptyCount ht.table + 1
      omega⟩
    · show (ht.table.set t (ht_hashof ht key)).length = 2 ^ ht.shift
      rw [List.length_set]
      exact hA.tlen
    · exact hA.dlen
    · exact hA.hmask
    · exact hA.hshift
    · show ht.cap = (HTABLE_CAP ht.shift : Int) -
        (nonEmptyCount (ht.table.set t (ht_hashof ht key)) : Int)
      have h8 := hA.hcap
      omega
    · show (0 : Int) ≤ ht.cap
      omega
    · show ht.len + 1 = usedCount (ht.table.set t (ht_hashof ht key))
      have h8 := hA.hlen
      omega

theorem valid_rehash_count (ht : Htable κ α) (hv : HtValid ht) :
    (List.range (ht.mask + 1).toNat).countP
      (fun j => decide (2 ≤ ht.table.getD j 0)) = ht.len := by
  rcases hv with hE | hA
  · obtain ⟨he1, he2, he3, he4, he5, he6⟩ := hE
    rw [he5, he3]
    rfl
  · have hm1 : (ht.mask + 1).toNat = 2 ^ ht.shift := by
      rw [hA.hmask]
      have h2 : (0 : Int) < 2 ^ ht.shift := pow_pos (by norm_num) _
      have h4 : ((2 : Int) ^ ht.shift) = ((2 ^ ht.shift : Nat) : Int) := by
        push_cast
        ring
      omega
    rw [hm1]
    rw [countP_range_getD ht.table (fun m => decide (2 ≤ m)) (2 ^ ht.shift)
      (by rw [hA.tlen])]
    rw [← hA.tlen, List.take_length, hA.hlen]
    rfl

theorem valid_len_le_cap (ht : Htable κ α) (hv : HtValid ht) :
    ht.len ≤ HTABLE_CAP ht.shift := by
  rcases hv with hE | hA
  · rw [hE.2.2.1]
    omega
  · have h1 := hA.hlen
    have h2 := hA.hcap
    have h3 := hA.hcapnn
    have h4 := usedCount_le_nonEmptyCount ht.table
    omega

theorem valid_shift_ge (ht : Htable κ α) (hv : HtValid ht) :
    HTABLE_SHIFT_MIN ≤ ht.shift := by
  rcases hv with hE | hA
  · rw [hE.2.2.2.2.2]
  · exact hA.hshift

theorem HTABLE_CAP_double (s : Nat) (hs : 2 ≤ s) :
    HTABLE_CAP (s + 1) = 2 * HTABLE_CAP s := by
  unfold HTABLE_CAP
  have h1 : s + 1 - 2 = (s - 2) + 1 := by omega
  rw [h1, pow_succ]
  ring

theorem HTABLE_CAP_pos (s : Nat) : 3 ≤ HTABLE_CAP s := by
  unfold HTABLE_CAP
  have h2 : 0 < 2 ^ (s - 2) := pow_pos (by norm_num) _
  omega

theorem htable_enter_raw_nomem (ht : Htable κ α) (key : κ) (hc : ht.cap = 0) :
    htable_enter_raw ht key false = (ht, EnterRes.nomem) := by
  unfold htable_enter_raw
  rw [if_pos hc]
  rfl

theorem htable_enter_raw_cap0 (ht : Htable κ α) (key : κ) (hv : HtValid ht)
    (hc : ht.cap = 0) :
    (htable_enter_raw ht key true).1.shift =
      ht.shift + (if HTABLE_CAP ht.shift / 2 < ht.len then 1 else 0) ∧
    HtValid (htable_enter_raw ht key true).1 ∧
    (htable_enter_raw ht key true).1.len ≤ ht.len + 1 ∧
    nonEmptyCount (htable_enter_raw ht key true).1.table ≤ ht.len + 1 := by
  have hde : htable_enter_raw ht key true =
      ht_enterProbe (htable_rehash ht
        (ht.shift + (if HTABLE_CAP ht.shift / 2 < ht.len then 1 else 0))
        true).1 key := by
    unfold htable_enter_raw
    rw [if_pos hc]
    rfl
  have hsge := valid_shift_ge ht hv
  have hlcap := valid_len_le_cap ht hv
  have hsle : ht.shift ≤ ht.shift +
      (if HTABLE_CAP ht.shift / 2 < ht.len then 1 else 0) := by omega
  obtain ⟨g1, g2, g3, g4, g5, g6, g7⟩ := htable_rehash_alive ht
    (ht.shift + (if HTABLE_CAP ht.shift / 2 < ht.len then 1 else 0))
    (by omega) (valid_rehash_count ht hv)
    (le_trans hlcap (HTABLE_CAP_mono hsle))
  have hcappos : 0 < (htable_rehash ht
      (ht.shift + (if HTABLE_CAP ht.shift / 2 < ht.len then 1 else 0))
      true).1.cap := by
    have h8 : (htable_rehash ht
        (ht.shift + (if HTABLE_CAP ht.shift / 2 < ht.len then 1 else 0))
        true).1.cap = (HTABLE_CAP (ht.shift +
          (if HTABLE_CAP ht.shift / 2 < ht.len then 1 else 0)) : Int) -
        (ht.len : Int) := rfl
    have hlt : ht.len < HTABLE_CAP (ht.shift +
        (if HTABLE_CAP ht.shift / 2 < ht.len then 1 else 0)) := by
      by_cases hcond : HTABLE_CAP ht.shift / 2 < ht.len
      · rw [if_pos hcond]
        have h9 := HTABLE_CAP_double ht.shift (by
          unfold HTABLE_SHIFT_MIN at hsge
          omega)
        have h10 := HTABLE_CAP_pos ht.shift
        omega
      · rw [if_neg hcond, Nat.add_zero]
        have h9 := HTABLE_CAP_pos ht.shift
        omega
    omega
  obtain ⟨p1, p2, p3, p4⟩ := ht_enterProbe_alive _ key g1 hcappos
  refine ⟨?_, ?_, ?_, ?_⟩
  · rw [hde, p2, g2]
  · rw [hde]
    exact Or.inr p1
  · rw [hde]
    rw [g3] at p3
    exact p3
  · rw [hde]
    rw [g5] at p4
    exact p4

theorem htable_enter_raw_cappos (ht : Htable κ α) (key : κ) (ok : Bool)
    (hv : HtValid ht) (hc : ht.cap ≠ 0) :
    (htable_enter_raw ht key ok).1.shift = ht.shift ∧
    HtValid (htable_enter_raw ht key ok).1 ∧
    (htable_enter_raw ht key ok).1.len ≤ ht.len + 1 ∧
    nonEmptyCount (htable_enter_raw ht key ok).1.table ≤
      nonEmptyCount ht.table + 1 := by
  have hde : htable_enter_raw ht key ok = ht_enterProbe ht key := by
    unfold htable_enter_raw
    rw [if_neg hc]
  have hA : Alive ht := by
    rcases hv with hE | hA
    · exact absurd hE.2.2.2.1 hc
    · exact hA
  have hpos : 0 < ht.cap := by
    have := hA.hcapnn
    omega
  obtain ⟨p1, p2, p3, p4⟩ := ht_enterProbe_alive ht key hA hpos
  rw [hde]
  exact ⟨p2, Or.inr p1, p3, p4⟩

theorem htable_enter_raw_valid (ht : Htable κ α) (key : κ) (ok : Bool)
    (hv : HtValid ht) :
    HtValid (htable_enter_raw ht key ok).1 ∧
    (htable_enter_raw ht key ok).1.len ≤ ht.len + 1 := by
  by_cases hc : ht.cap = 0
  · cases ok with
    | false =>
      rw [htable_enter_raw_nomem ht key hc]
      exact ⟨hv, Nat.le_succ ht.len⟩
    | true =>
      obtain ⟨_, p2, p3, _⟩ := htable_enter_raw_cap0 ht key hv hc
      exact ⟨p2, p3⟩
  · obtain ⟨_, p2, p3, _⟩ := htable_enter_raw_cappos ht key ok hv hc
    exact ⟨p2, p3⟩

theorem valid_set_data (ht2 : Htable κ α) (i : Nat) (v : Option α)
    (hv : HtValid ht2) : HtValid { ht2 with data := ht2.data.set i v } := by
  rcases hv with hE | hA
  · left
    obtain ⟨e1, e2, e3, e4, e5, e6⟩ := hE
    refine ⟨e1, ?_, e3, e4, e5, e6⟩
    show ht2.data.set i v = []
    rw [e2]
    rfl
  · right
    refine ⟨hA.tlen, ?_, hA.hmask, hA.hshift, hA.hcap, hA.hcapnn, hA.hlen⟩
    show (ht2.data.set i v).length = 2 ^ ht2.shift
    rw [List.length_set]
    exact hA.dlen

theorem htable_enter_valid (ht : Htable κ α) (key : κ) (e2 : α) (ok : Bool)
    (hv : HtValid ht) :
    HtValid (htable_enter ht key e2 ok).1 ∧
    (htable_enter ht key e2 ok).1.len ≤ ht.len + 1 := by
  obtain ⟨q1, q2⟩ := htable_enter_raw_valid ht key ok hv
  unfold htable_enter
  by_cases hcmp : ht.hasher.comp key e2 = true
  · rw [if_pos hcmp]
    rcases hres : (htable_enter_raw ht key ok).2 with i | i | _ | _ | _
    all_goals simp only [hres]
    · exact ⟨valid_set_data _ i (some e2) q1, q2⟩
    · exact ⟨q1, q2⟩
    · exact ⟨q1, q2⟩
    · exact ⟨q1, q2⟩
    · exact ⟨q1, q2⟩
  · rw [if_neg hcmp]
    exact ⟨hv, Nat.le_succ ht.len⟩

theorem htable_delete_valid (ht : Htable κ α) (key : κ) (hv : HtValid ht) :
    HtValid (htable_delete ht key).1 ∧
    (htable_delete ht key).1.shift = ht.shift ∧
    (htable_delete ht key).1.len ≤ ht.len ∧
    nonEmptyCount (htable_delete ht key).1.table = nonEmptyCount ht.table := by
  rcases hv with hE | hA
  · have hde : htable_delete ht key = (ht, FindRes.nofind) := by
      unfold htable_delete
      apply ht_deleteLoop_first_empty
      · have h2 : 0 < HTABLE_SIZE ht.shift := pow_pos (by norm_num) _
        omega
      · rw [hE.1]
        exact table_empty_getD _
    rw [hde]
    exact ⟨Or.inl hE, rfl, Nat.le_refl _, rfl⟩
  · have hde : htable_delete ht key =
        ht_deleteLoop ht (ht_hashof ht key) key
          (ht_start ht.shift (ht_hashof ht key)) 0 (HTABLE_SIZE ht.shift) := rfl
    have hcases := ht_deleteLoop_cases ht (ht_hashof ht key) key hA.hmask
      (HTABLE_SIZE ht.shift) (ht_start ht.shift (ht_hashof ht key)) 0
      (ht_start_lt ht.shift (ht_hashof ht key))
    rcases hcases with hc | hc | ⟨t, htl, hmk, hiseq, hc⟩
    · rw [hde, hc]
      exact ⟨Or.inr hA, rfl, Nat.le_refl _, rfl⟩
    · rw [hde, hc]
      exact ⟨Or.inr hA, rfl, Nat.le_refl _, rfl⟩
    · rw [hde, hc]
      have htlen : t < ht.table.length := by
        rw [hA.tlen]
        exact htl
      have hcnt := countP_set_add (fun m => decide (2 ≤ m)) ht.table t 1 htlen
      simp only [decide_eq_true_eq] at hcnt
      rw [if_pos hmk, if_neg (by omega : ¬ 2 ≤ 1)] at hcnt
      have hcnt2 := countP_set_add (fun m => decide (m ≠ 0)) ht.table t 1 htlen
      simp only [decide_eq_true_eq] at hcnt2
      rw [if_pos (by omega : ht.table.getD t 0 ≠ 0),
        if_pos (by omega : (1 : Nat) ≠ 0)] at hcnt2
      have hused : usedCount (ht.table.set t 1) + 1 = usedCount ht.table := by
        unfold usedCount
        omega
      have hnon : nonEmptyCount (ht.table.set t 1) = nonEmptyCount ht.table := by
        unfold nonEmptyCount
        omega
      have hlen8 := hA.hlen
      refine ⟨Or.inr ⟨?_, hA.dlen, hA.hmask, hA.hshift, ?_, ?_, ?_⟩, rfl, ?_, ?_⟩
      · show (ht.table.set t 1).length = 2 ^ ht.shift
        rw [List.length_set]
        exact hA.tlen
      · show ht.cap = (HTABLE_CAP ht.shift : Int) -
          (nonEmptyCount (ht.table.set t 1) : Int)
        have h8 := hA.hcap
        omega
      · exact hA.hcapnn
      · show ht.len - 1 = usedCount (ht.table.set t 1)
        omega
      · show ht.len - 1 ≤ ht.len
        omega
      · exact hnon

theorem htable_delete_at_valid (ht : Htable κ α) (i : Nat) (hv : HtValid ht) :
    HtValid (htable_delete_at ht i).1 ∧
    (htable_delete_at ht i).1.shift = ht.shift ∧
    (htable_delete_at ht i).1.len ≤ ht.len ∧
    nonEmptyCount (htable_delete_at ht i).1.table = nonEmptyCount ht.table := by
  unfold htable_delete_at
  by_cases hg : 2 ≤ ht.table.getD i 0
  · rw [if_pos hg]
    have hA : Alive ht := by
      rcases hv with hE | hA
      · rw [hE.1, table_empty_getD] at hg
        omega
      · exact hA
    have htlen : i < ht.table.length := by
      by_contra hno
      rw [List.getD_eq_default ht.table 0 (by omega)] at hg
      omega
    have hcnt := countP_set_add (fun m => decide (2 ≤ m)) ht.table i 1 htlen
    simp only [decide_eq_true_eq] at hcnt
    rw [if_pos hg, if_neg (by omega : ¬ 2 ≤ 1)] at hcnt
    have hcnt2 := countP_set_add (fun m => decide (m ≠ 0)) ht.table i 1 htlen
    simp only [decide_eq_true_eq] at hcnt2
    rw [if_pos (by omega : ht.table.getD i 0 ≠ 0),
      if_pos (by omega : (1 : Nat) ≠ 0)] at hcnt2
    have hused : usedCount (ht.table.set i 1) + 1 = usedCount ht.table := by
      unfold usedCount
      omega
    have hnon : nonEmptyCount (ht.table.set i 1) = nonEmptyCount ht.table := by
      unfold nonEmptyCount
      omega
    have hlen8 := hA.hlen
    refine ⟨Or.inr ⟨?_, hA.dlen, hA.hmask, hA.hshift, ?_, ?_, ?_⟩, rfl, ?_, ?_⟩
    · show (ht.table.set i 1).length = 2 ^ ht.shift
      rw [List.length_set]
      exact hA.tlen
    · show ht.cap = (HTABLE_CAP ht.shift : Int) -
        (nonEmptyCount (ht.table.set i 1) : Int)
      have h8 := hA.hcap
      omega
    · exact hA.hcapnn
    · show ht.len - 1 = usedCount (ht.table.set i 1)
      omega
    · show ht.len - 1 ≤ ht.len
      omega
    · exact hnon
  · rw [if_neg hg]
    exact ⟨hv, rfl, Nat.le_refl _, rfl⟩

theorem htable_resize_valid (ht : Htable κ α) (c : Nat) (ok : Bool)
    (hv : HtValid ht) : HtValid (htable_resize ht c ok).1 := by
  simp only [htable_resize]
  by_cases hl : ht.len ≤ c
  · rw [if_pos hl]
    by_cases hs : ht_resizeLoop c
        (if HTABLE_CAP ht.shift ≤ c then ht.shift else HTABLE_SHIFT_MIN) ≠ ht.shift
    · rw [if_pos hs]
      cases ok with
      | false =>
        have hde : htable_rehash ht (ht_resizeLoop c
            (if HTABLE_CAP ht.shift ≤ c then ht.shift else HTABLE_SHIFT_MIN))
            false = (ht, -ENOMEM) := rfl
        rw [hde]
        exact hv
      | true =>
        have hs0 : HTABLE_SHIFT_MIN ≤
            (if HTABLE_CAP ht.shift ≤ c then ht.shift else HTABLE_SHIFT_MIN) := by
          by_cases h7 : HTABLE_CAP ht.shift ≤ c
          · rw [if_pos h7]
            exact valid_shift_ge ht hv
          · rw [if_neg h7]
        have hs1 : HTABLE_SHIFT_MIN ≤ ht_resizeLoop c
            (if HTABLE_CAP ht.shift ≤ c then ht.shift else HTABLE_SHIFT_MIN) :=
          le_trans hs0 (ht_resizeLoop_ge c _)
        obtain ⟨g1, _, _, _, _, _, _⟩ := htable_rehash_alive ht
          (ht_resizeLoop c
            (if HTABLE_CAP ht.shift ≤ c then ht.shift else HTABLE_SHIFT_MIN))
          hs1 (valid_rehash_count ht hv)
          (le_trans hl (ht_resizeLoop_cap_ge c _))
        exact Or.inr g1
    · rw [if_neg hs]
      exact hv
  · rw [if_neg hl]
    exact hv

theorem create_valid (seed : Nat) (hasher : HtableInterface κ α) :
    HtValid (htable_create seed hasher) :=
  Or.inl ⟨rfl, rfl, rfl, rfl, rfl, rfl⟩

theorem destroy_empty (ht : Htable κ α) : EmptyState (htable_destroy ht) :=
  ⟨rfl, rfl, rfl, rfl, rfl, rfl⟩

theorem runOp_valid (ht : Htable κ α) (op : HtOp κ α) (hv : HtValid ht) :
    HtValid (runOp ht op) := by
  cases op with
  | enter k e2 ok => exact (htable_enter_valid ht k e2 ok hv).1
  | enterRaw k ok => exact (htable_enter_raw_valid ht k ok hv).1
  | find k => exact hv
  | delete k => exact (htable_delete_valid ht k hv).1
  | deleteAt i => exact (htable_delete_at_valid ht i hv).1
  | resize c ok => exact htable_resize_valid ht c ok hv
  | walk => exact hv
  | yield it => exact hv
  | destroy => exact Or.inl (destroy_empty ht)

theorem runOps_valid (ht : Htable κ α) (ops : List (HtOp κ α)) (hv : HtValid ht) :
    HtValid (runOps ht ops) := by
  induction ops generalizing ht with
  | nil => exact hv
  | cons op ops2 ih => exact ih (runOp ht op) (runOp_valid ht op hv)

theorem HTABLE_CAP_as_three_quarters (s : Nat) (hs : 2 ≤ s) :
    HTABLE_CAP s = 3 * 2 ^ s / 4 := by
  have h1 : 2 ^ s = 2 ^ (s - 2) * 4 := by
    rw [show (4 : Nat) = 2 ^ 2 from rfl, ← pow_add]
    congr 1
    omega
  unfold HTABLE_CAP
  rw [h1]
  omega

/-- Claim C2: after every sequence of operations starting from htable_create,
the live count `len` never exceeds 75% of the current table size `2 ^ shift`. -/
theorem claim_C2 {κ α : Type} (seed : Nat) (hasher : HtableInterface κ α)
    (ops : List (HtOp κ α)) :
    htable_len (runOps (htable_create seed hasher) ops) ≤
      3 * 2 ^ (runOps (htable_create seed hasher) ops).shift / 4 := by
  have hv := runOps_valid (htable_create seed hasher) ops
    (create_valid seed hasher)
  have hlc := valid_len_le_cap _ hv
  have hsge := valid_shift_ge _ hv
  have heq := HTABLE_CAP_as_three_quarters
    (runOps (htable_create seed hasher) ops).shift
    (by unfold HTABLE_SHIFT_MIN at hsge; omega)
  show (runOps (htable_create seed hasher) ops).len ≤ _
  omega

/-- Claim C6: along every operation sequence, whenever the table has a real
allocation (`mask ≥ 0`) the number of non-EMPTY slots plus the
remaining-insert budget `cap` equals `⌊3 · size / 4⌋ = HTABLE_CAP shift`
(so `cap` is decremented exactly by insertions claiming an EMPTY slot); and
immediately after a successful rehash `cap = HTABLE_CAP shift - len` with
`len` carried over. -/
theorem claim_C6 {κ α : Type} (seed : Nat) (hasher : HtableInterface κ α)
    (ops : List (HtOp κ α)) (ht : Htable κ α) (s2 : Nat) :
    (0 ≤ (runOps (htable_create seed hasher) ops).mask →
      (nonEmptyCount (runOps (htable_create seed hasher) ops).table : Int) +
        (runOps (htable_create seed hasher) ops).cap =
        (HTABLE_CAP (runOps (htable_create seed hasher) ops).shift : Int)) ∧
    ((htable_rehash ht s2 true).1.len = ht.len ∧
     (htable_rehash ht s2 true).1.cap =
       (HTABLE_CAP s2 : Int) - ((htable_rehash ht s2 true).1.len : Int)) := by
  constructor
  · intro hm
    have hv := runOps_valid (htable_create seed hasher) ops
      (create_valid seed hasher)
    rcases hv with hE | hA
    · exfalso
      rw [hE.2.2.2.2.1] at hm
      omega
    · have h2 := hA.hcap
      omega
  · exact ⟨rfl, rfl⟩

/-- Witness for C2-style reasoning is not needed (no hypotheses), but C6 has
an implication; instantiate it on a concrete run. -/
theorem claim_C6_witness :
    (0 : Int) ≤ demoHt2.mask ∧
    (nonEmptyCount demoHt2.table : Int) + demoHt2.cap =
      (HTABLE_CAP demoHt2.shift : Int) :=
  ⟨by decide, (claim_C6 0 demoIface
    [HtOp.enter 10 10 true, HtOp.enter 20 20 true]
    (htable_create 0 demoIface) 3).1 (by decide)⟩

/-- Claim C8: every allocation failure (the `allocOk = false` oracle) leaves
the table exactly in its prior state and reports OutOfMemory: htable_rehash
itself, the insertion-triggered rehash in htable_enter_unsafe, and the rehash
inside htable_resize. -/
theorem claim_C8 {κ α : Type} (ht : Htable κ α) (key : κ) (c s2 : Nat) :
    (htable_rehash ht s2 false = (ht, -ENOMEM)) ∧
    (ht.cap = 0 → htable_enter_raw ht key false = (ht, EnterRes.nomem)) ∧
    (ht.len ≤ c →
      ht_resizeLoop c (if HTABLE_CAP ht.shift ≤ c then ht.shift
        else HTABLE_SHIFT_MIN) ≠ ht.shift →
      htable_resize ht c false = (ht, -ENOMEM)) := by
  refine ⟨rfl, htable_enter_raw_nomem ht key, ?_⟩
  intro hl hs
  simp only [htable_resize]
  rw [if_pos hl, if_pos hs]
  rfl

theorem ht_resizeLoop_100_3 : ht_resizeLoop 100 3 = 8 := by
  rw [ht_resizeLoop, dif_pos (by decide)]
  rw [ht_resizeLoop, dif_pos (by decide)]
  rw [ht_resizeLoop, dif_pos (by decide)]
  rw [ht_resizeLoop, dif_pos (by decide)]
  rw [ht_resizeLoop, dif_pos (by decide)]
  rw [ht_resizeLoop, dif_neg (by decide)]

/-- Witness for C8 at a concrete state with an exhausted budget. -/
theorem claim_C8_witness :
    c3st.cap = 0 ∧ c3st.len ≤ 100 ∧
    ht_resizeLoop 100 (if HTABLE_CAP c3st.shift ≤ 100 then c3st.shift
      else HTABLE_SHIFT_MIN) ≠ c3st.shift ∧
    htable_enter_raw c3st 70 false = (c3st, EnterRes.nomem) ∧
    htable_resize c3st 100 false = (c3st, -ENOMEM) := by
  have hsh : c3st.shift = 3 := by decide
  have hif : (if HTABLE_CAP c3st.shift ≤ 100 then c3st.shift
      else HTABLE_SHIFT_MIN) = 3 := by
    rw [if_pos (by decide)]
    exact hsh
  have hne : ht_resizeLoop 100 (if HTABLE_CAP c3st.shift ≤ 100 then c3st.shift
      else HTABLE_SHIFT_MIN) ≠ c3st.shift := by
    rw [hif, ht_resizeLoop_100_3, hsh]
    decide
  exact ⟨by decide, by decide, hne,
    (claim_C8 c3st 70 100 3).2.1 (by decide),
    (claim_C8 c3st 70 100 3).2.2 (by decide) hne⟩

/-- Claim C7: htable_resize fails with OutOfSpace and no mutation when the
requested capacity is below the live count; otherwise it targets exactly the
minimal shift (at least HTABLE_SHIFT_MIN) whose 75%-load capacity reaches the
request, rehashing only when that shift differs from the current one and
returning 0 without rehashing when it is equal. -/
theorem claim_C7 {κ α : Type} (ht : Htable κ α) (c : Nat) (ok : Bool)
    (_hc : 0 < c) (hs : HTABLE_SHIFT_MIN ≤ ht.shift) :
    (c < ht.len → htable_resize ht c ok = (ht, -ENOSPC)) ∧
    (ht.len ≤ c →
      IsLeast {s : Nat | HTABLE_SHIFT_MIN ≤ s ∧ c ≤ HTABLE_CAP s}
        (ht_resizeLoop c (if HTABLE_CAP ht.shift ≤ c then ht.shift
          else HTABLE_SHIFT_MIN)) ∧
      htable_resize ht c ok =
        (if ht_resizeLoop c (if HTABLE_CAP ht.shift ≤ c then ht.shift
            else HTABLE_SHIFT_MIN) = ht.shift
         then (ht, 0)
         else htable_rehash ht (ht_resizeLoop c (if HTABLE_CAP ht.shift ≤ c
            then ht.shift else HTABLE_SHIFT_MIN)) ok)) := by
  constructor
  · intro hlt
    simp only [htable_resize]
    rw [if_neg (by omega)]
  · intro hle
    constructor
    · constructor
      · refine ⟨?_, ht_resizeLoop_cap_ge c _⟩
        refine le_trans ?_ (ht_resizeLoop_ge c _)
        by_cases h7 : HTABLE_CAP ht.shift ≤ c
        · rw [if_pos h7]
          exact hs
        · rw [if_neg h7]
      · rintro b ⟨hb3, hbc⟩
        by_cases h7 : HTABLE_CAP ht.shift ≤ c
        · rw [if_pos h7]
          apply ht_resizeLoop_min
          · by_contra hbs
            push_neg at hbs
            have h8 : HTABLE_CAP b < HTABLE_CAP ht.shift :=
              HTABLE_CAP_strict_mono
                (by unfold HTABLE_SHIFT_MIN at hb3; omega) hbs
            omega
          · exact hbc
        · rw [if_neg h7]
          exact ht_resizeLoop_min c _ b hb3 hbc
    · simp only [htable_resize]
      rw [if_pos hle]
      by_cases h8 : ht_resizeLoop c (if HTABLE_CAP ht.shift ≤ c then ht.shift
          else HTABLE_SHIFT_MIN) = ht.shift
      · simp [h8]
      · simp [h8]

/-- Witness for C7: resizing a 2-entry table to capacity 1 is OutOfSpace. -/
theorem claim_C7_witness :
    (0 : Nat) < 1 ∧ HTABLE_SHIFT_MIN ≤ demoHt2.shift ∧ 1 < demoHt2.len ∧
    htable_resize demoHt2 1 true = (demoHt2, -ENOSPC) :=
  ⟨by decide, by decide, by decide,
    (claim_C7 demoHt2 1 true (by decide) (by decide)).1 (by decide)⟩

/-- Counterexample to claim C3 as stated: `c3st` is a reachable state with
`cap = 0` (six insertions exhausted the budget, then six deletions left
`len = 0`), yet the rehash triggered by the next htable_enter_unsafe keeps
`shift = 3` — it does not grow by one level as the claim requires. -/
theorem claim_C3_counterexample :
    c3st.cap = 0 ∧ c3st.shift = 3 ∧ c3st.len = 0 ∧
    (htable_enter_raw c3st 70 true).1.shift = 3 ∧
    ¬ (c3st.shift + 1 ≤ (htable_enter_raw c3st 70 true).1.shift) := by
  decide

/-- Claim C3 (amended): when htable_enter_unsafe is called with the budget
exhausted (`cap = 0`), it rehashes first to `shift + 1` exactly when the
live count exceeds half of the *current* level's capacity, and otherwise
rehashes at the same shift; if the rehash allocation fails the call returns
OutOfMemory, no pointer, and the table is unchanged. -/
theorem claim_C3_amended {κ α : Type} (ht : Htable κ α) (key : κ)
    (hv : HtValid ht) (hc : ht.cap = 0) :
    (htable_enter_raw ht key true).1.shift =
      ht.shift + (if HTABLE_CAP ht.shift / 2 < ht.len then 1 else 0) ∧
    htable_enter_raw ht key false = (ht, EnterRes.nomem) :=
  ⟨(htable_enter_raw_cap0 ht key hv hc).1, htable_enter_raw_nomem ht key hc⟩

/-- Witness for the amended C3 on the concrete exhausted-budget state. -/
theorem claim_C3_amended_witness :
    c3st.cap = 0 ∧
    (htable_enter_raw c3st 70 true).1.shift =
      c3st.shift + (if HTABLE_CAP c3st.shift / 2 < c3st.len then 1 else 0) :=
  ⟨by decide, (claim_C3_amended c3st 70
    (runOps_valid (htable_create 0 demoIface) c3ops (create_valid 0 demoIface))
    (by decide)).1⟩

/-- Counterexample to claim C9 as stated: with carefully steered hash values,
inserting keys 1..5 (N = 5 ≤ capacity 6 of the size-8 table), deleting all
five, then inserting keys 6..10 grows the table from `shift = 3` to
`shift = 4`: the first three new keys reuse tombstones, the fourth claims the
last budgeted EMPTY slot, and the fifth triggers a growing rehash because
`len = 4 > HTABLE_CAP 3 / 2`. -/
theorem claim_C9_counterexample :
    (htable_create 0 c9iface).shift = 3 ∧
    HTABLE_CAP 3 = 6 ∧
    c9mid.len = 0 ∧ c9mid.shift = 3 ∧
    c9st.len = 5 ∧ c9st.shift = 4 := by
  decide

theorem nonEmpty_table_empty : nonEmptyCount table_empty = 0 := by decide

theorem htable_enter_raw_step_bound (ht : Htable κ α) (key : κ) (ok : Bool)
    (hv : HtValid ht) (hne : nonEmptyCount ht.table < HTABLE_CAP ht.shift) :
    (htable_enter_raw ht key ok).1.shift = ht.shift ∧
    HtValid (htable_enter_raw ht key ok).1 ∧
    nonEmptyCount (htable_enter_raw ht key ok).1.table ≤
      nonEmptyCount ht.table + 1 := by
  by_cases hc : ht.cap = 0
  · have hE : EmptyState ht := by
      rcases hv with hE | hA
      · exact hE
      · exfalso
        have h2 := hA.hcap
        omega
    cases ok with
    | false =>
      rw [htable_enter_raw_nomem ht key hc]
      exact ⟨rfl, hv, Nat.le_succ (nonEmptyCount ht.table)⟩
    | true =>
      obtain ⟨p1, p2, p3, p4⟩ := htable_enter_raw_cap0 ht key hv hc
      have hlen0 : ht.len = 0 := hE.2.2.1
      have hne0 : nonEmptyCount ht.table = 0 := by
        rw [hE.1]
        exact nonEmpty_table_empty
      refine ⟨?_, p2, ?_⟩
      · rw [p1, hlen0, if_neg (by omega : ¬ HTABLE_CAP ht.shift / 2 < 0)]
        omega
      · rw [hne0]
        rw [hlen0] at p4
        omega
  · obtain ⟨p1, p2, p3, p4⟩ := htable_enter_raw_cappos ht key ok hv hc
    exact ⟨p1, p2, p4⟩

theorem htable_enter_state (ht : Htable κ α) (key : κ) (e2 : α) (ok : Bool) :
    (htable_enter ht key e2 ok).1 = ht ∨
    (htable_enter ht key e2 ok).1 = (htable_enter_raw ht key ok).1 ∨
    ∃ i, (htable_enter ht key e2 ok).1 =
      { (htable_enter_raw ht key ok).1 with
        data := (htable_enter_raw ht key ok).1.data.set i (some e2) } := by
  unfold htable_enter
  by_cases hcmp : ht.hasher.comp key e2 = true
  · rw [if_pos hcmp]
    rcases hres : (htable_enter_raw ht key ok).2 with i | i | _ | _ | _
    · right
      right
      refine ⟨i, ?_⟩
      simp only [hres]
    · right
      left
      simp only [hres]
    · right
      left
      simp only [hres]
    · right
      left
      simp only [hres]
    · right
      left
      simp only [hres]
  · rw [if_neg hcmp]
    left
    rfl

theorem htable_enter_step_bound (ht : Htable κ α) (key : κ) (e2 : α)
    (ok : Bool) (hv : HtValid ht)
    (hne : nonEmptyCount ht.table < HTABLE_CAP ht.shift) :
    (htable_enter ht key e2 ok).1.shift = ht.shift ∧
    HtValid (htable_enter ht key e2 ok).1 ∧
    nonEmptyCount (htable_enter ht key e2 ok).1.table ≤
      nonEmptyCount ht.table + 1 := by
  rcases htable_enter_state ht key e2 ok with h | h | ⟨i, h⟩ <;> rw [h]
  · exact ⟨rfl, hv, by omega⟩
  · exact htable_enter_raw_step_bound ht key ok hv hne
  · obtain ⟨p1, p2, p3⟩ := htable_enter_raw_step_bound ht key ok hv hne
    exact ⟨p1, valid_set_data _ i (some e2) p2, p3⟩

theorem scenario_no_grow (ops : List (HtOp κ α)) :
    ∀ ht : Htable κ α, HtValid ht →
      nonEmptyCount ht.table + ops.countP isEnterOp ≤ HTABLE_CAP ht.shift →
      (∀ op ∈ ops, isScenarioOp op = true) →
      (runOps ht ops).shift = ht.shift ∧
      HtValid (runOps ht ops) ∧
      nonEmptyCount (runOps ht ops).table ≤
        nonEmptyCount ht.table + ops.countP isEnterOp := by
  induction ops with
  | nil =>
    intro ht hv hb hs
    exact ⟨rfl, hv, Nat.le_add_right (nonEmptyCount ht.table) _⟩
  | cons op ops2 ih =>
    intro ht hv hb hs
    have hsc := hs op (List.mem_cons_self op ops2)
    have hrest : ∀ op2 ∈ ops2, isScenarioOp op2 = true := by
      intro op2 hop2
      exact hs op2 (List.mem_cons_of_mem _ hop2)
    have hrun : runOps ht (op :: ops2) = runOps (runOp ht op) ops2 := rfl
    cases op with
    | enter k e2 ok =>
      have hcount : ((HtOp.enter k e2 ok :: ops2).countP isEnterOp) =
          ops2.countP isEnterOp + 1 := by
        rw [List.countP_cons]
        simp [isEnterOp]
      rw [hcount] at hb
      have hne : nonEmptyCount ht.table < HTABLE_CAP ht.shift := by omega
      obtain ⟨p1, p2, p3⟩ := htable_enter_step_bound ht k e2 ok hv hne
      obtain ⟨q1, q2, q3⟩ := ih (htable_enter ht k e2 ok).1 p2
        (by rw [p1]; omega) hrest
      refine ⟨?_, q2, ?_⟩
      · rw [hrun]
        show (runOps (htable_enter ht k e2 ok).1 ops2).shift = ht.shift
        rw [q1, p1]
      · rw [hrun, hcount]
        show nonEmptyCount (runOps (htable_enter ht k e2 ok).1 ops2).table ≤ _
        omega
    | enterRaw k ok =>
      have hcount : ((HtOp.enterRaw k ok :: ops2).countP isEnterOp) =
          ops2.countP isEnterOp + 1 := by
        rw [List.countP_cons]
        simp [isEnterOp]
      rw [hcount] at hb
      have hne : nonEmptyCount ht.table < HTABLE_CAP ht.shift := by omega
      obtain ⟨p1, p2, p3⟩ := htable_enter_raw_step_bound ht k ok hv hne
      obtain ⟨q1, q2, q3⟩ := ih (htable_enter_raw ht k ok).1 p2
        (by rw [p1]; omega) hrest
      refine ⟨?_, q2, ?_⟩
      · rw [hrun]
        show (runOps (htable_enter_raw ht k ok).1 ops2).shift = ht.shift
        rw [q1, p1]
      · rw [hrun, hcount]
        show nonEmptyCount (runOps (htable_enter_raw ht k ok).1 ops2).table ≤ _
        omega
    | find k =>
      have hcount : ((HtOp.find k :: ops2).countP (@isEnterOp κ α)) =
          ops2.countP isEnterOp := by
        rw [List.countP_cons]
        simp [isEnterOp]
      rw [hcount] at hb
      obtain ⟨q1, q2, q3⟩ := ih ht hv hb hrest
      rw [hrun, hcount]
      exact ⟨q1, q2, q3⟩
    | delete k =>
      have hcount : ((HtOp.delete k :: ops2).countP (@isEnterOp κ α)) =
          ops2.countP isEnterOp := by
        rw [List.countP_cons]
        simp [isEnterOp]
      rw [hcount] at hb
      obtain ⟨p1, p2, p3, p4⟩ := htable_delete_valid ht k hv
      obtain ⟨q1, q2, q3⟩ := ih (htable_delete ht k).1 p1
        (by rw [p2, p4]; omega) hrest
      refine ⟨?_, q2, ?_⟩
      · rw [hrun]
        show (runOps (htable_delete ht k).1 ops2).shift = ht.shift
        rw [q1, p2]
      · rw [hrun, hcount]
        show nonEmptyCount (runOps (htable_delete ht k).1 ops2).table ≤ _
        rw [p4] at q3
        omega
    | deleteAt i =>
      have hcount : ((HtOp.deleteAt i :: ops2).countP (@isEnterOp κ α)) =
          ops2.countP isEnterOp := by
        rw [List.countP_cons]
        simp [isEnterOp]
      rw [hcount] at hb
      obtain ⟨p1, p2, p3, p4⟩ := htable_delete_at_valid ht i hv
      obtain ⟨q1, q2, q3⟩ := ih (htable_delete_at ht i).1 p1
        (by rw [p2, p4]; omega) hrest
      refine ⟨?_, q2, ?_⟩
      · rw [hrun]
        show (runOps (htable_delete_at ht i).1 ops2).shift = ht.shift
        rw [q1, p2]
      · rw [hrun, hcount]
        show nonEmptyCount (runOps (htable_delete_at ht i).1 ops2).table ≤ _
        rw [p4] at q3
        omega
    | resize c ok =>
      exfalso
      simp [isScenarioOp] at hsc
    | walk =>
      have hcount : ((HtOp.walk :: ops2).countP (@isEnterOp κ α)) =
          ops2.countP isEnterOp := by
        rw [List.countP_cons]
        simp [isEnterOp]
      rw [hcount] at hb
      obtain ⟨q1, q2, q3⟩ := ih ht hv hb hrest
      rw [hrun, hcount]
      exact ⟨q1, q2, q3⟩
    | yield it =>
      have hcount : ((HtOp.yield it :: ops2).countP (@isEnterOp κ α)) =
          ops2.countP isEnterOp := by
        rw [List.countP_cons]
        simp [isEnterOp]
      rw [hcount] at hb
      obtain ⟨q1, q2, q3⟩ := ih ht hv hb hrest
      rw [hrun, hcount]
      exact ⟨q1, q2, q3⟩
    | destroy =>
      exfalso
      simp [isScenarioOp] at hsc

/-- Claim C9 (amended): inserting a batch of keys, deleting any keys, then
inserting a second batch never grows the table provided the two insertion
batches together stay within the starting budget headroom
(`nonEmpty + N1 + N2 ≤ HTABLE_CAP shift`; for a pristine table and equal
batches of size N this is N ≤ half the capacity).  The counterexample shows
the original bound N ≤ capacity is not enough. -/
theorem claim_C9_amended {κ α : Type} (ht0 : Htable κ α)
    (es1 es2 : List (κ × α)) (dels : List κ)
    (hv : HtValid ht0)
    (hbound : nonEmptyCount ht0.table + es1.length + es2.length ≤
      HTABLE_CAP ht0.shift) :
    (runOps ht0 ((es1.map (fun q : κ × α => HtOp.enter q.1 q.2 true)) ++
      (dels.map (fun k : κ => (HtOp.delete k : HtOp κ α))) ++
      (es2.map (fun q : κ × α => HtOp.enter q.1 q.2 true)))).shift =
      ht0.shift := by
  have hcnt : ((es1.map (fun q : κ × α => HtOp.enter q.1 q.2 true)) ++
      (dels.map (fun k : κ => (HtOp.delete k : HtOp κ α))) ++
      (es2.map (fun q : κ × α => HtOp.enter q.1 q.2 true))).countP isEnterOp =
      es1.length + es2.length := by
    rw [List.countP_append, List.countP_append, List.countP_map,
      List.countP_map, List.countP_map]
    have e1 : (isEnterOp ∘ fun q : κ × α => HtOp.enter q.1 q.2 true) =
        fun _ => true := by
      funext q
      rfl
    have e2 : (isEnterOp ∘ fun k : κ => (HtOp.delete k : HtOp κ α)) =
        fun _ => false := by
      funext k
      rfl
    rw [e1, e2]
    simp
  have hscen : ∀ op ∈ ((es1.map (fun q : κ × α => HtOp.enter q.1 q.2 true)) ++
      (dels.map (fun k : κ => (HtOp.delete k : HtOp κ α))) ++
      (es2.map (fun q : κ × α => HtOp.enter q.1 q.2 true))),
      isScenarioOp op = true := by
    intro op hop
    rcases List.mem_append.mp hop with hop1 | hop2
    · rcases List.mem_append.mp hop1 with hop3 | hop4
      · obtain ⟨q, _, rfl⟩ := List.mem_map.mp hop3
        rfl
      · obtain ⟨k, _, rfl⟩ := List.mem_map.mp hop4
        rfl
    · obtain ⟨q, _, rfl⟩ := List.mem_map.mp hop2
      rfl
  obtain ⟨p1, _, _⟩ := scenario_no_grow _ ht0 hv (by rw [hcnt]; omega) hscen
  exact p1

/-- Witness for the amended C9: three inserts, three deletes, three new
inserts on a fresh table (2 N = 6 ≤ capacity 6) keep shift = 3. -/
theorem claim_C9_amended_witness :
    nonEmptyCount (htable_create 0 demoIface).table +
      ([((10 : Nat), (10 : Nat)), (20, 20), (30, 30)] : List (Nat × Nat)).length +
      ([((40 : Nat), (40 : Nat)), (50, 50), (60, 60)] : List (Nat × Nat)).length ≤
      HTABLE_CAP (htable_create 0 demoIface).shift ∧
    (runOps (htable_create 0 demoIface)
      ((([((10 : Nat), (10 : Nat)), (20, 20), (30, 30)] : List (Nat × Nat)).map
          (fun q : Nat × Nat => HtOp.enter q.1 q.2 true)) ++
       (([10, 20, 30] : List Nat).map (fun k : Nat => (HtOp.delete k : HtOp Nat Nat))) ++
       (([((40 : Nat), (40 : Nat)), (50, 50), (60, 60)] : List (Nat × Nat)).map
          (fun q : Nat × Nat => HtOp.enter q.1 q.2 true)))).shift =
      (htable_create 0 demoIface).shift :=
  ⟨by decide, claim_C9_amended (htable_create 0 demoIface)
    [(10, 10), (20, 20), (30, 30)] [(40, 40), (50, 50), (60, 60)]
    [10, 20, 30] (create_valid 0 demoIface) (by decide)⟩

theorem valid_mask_neg (ht2 : Htable κ α) (hv : HtValid ht2)
    (hm : ht2.mask < 0) : ht2.table = table_empty := by
  rcases hv with hE | hA
  · exact hE.1
  · exfalso
    have h2 := hA.hmask
    have h3 : (0 : Int) < 2 ^ ht2.shift := pow_pos (by norm_num) _
    omega

/-- Claim C10: on a freshly created table and after htable_destroy, lookup
and deletion find nothing for every key, the length is zero, walk and yield
visit no entries; destroy from any state re-establishes exactly this
unallocated state; and no operation ever writes through the shared static
empty bucket array: any state still unallocated (`mask < 0`) after one more
operation has its table equal to the pristine all-EMPTY `table_empty`
(mutating paths allocate a fresh table, via rehash, before their first
write). -/
theorem claim_C10 {κ α : Type} (ht ht2 : Htable κ α) (key : κ) (iter : Nat)
    (seed : Nat) (hasher : HtableInterface κ α) (op : HtOp κ α)
    (hE : EmptyState ht) :
    htable_find ht key = FindRes.nofind ∧
    htable_delete ht key = (ht, FindRes.nofind) ∧
    htable_len ht = 0 ∧
    htable_walkList ht = [] ∧
    htable_yield ht iter = none ∧
    EmptyState (htable_create seed hasher) ∧
    EmptyState (htable_destroy ht2) ∧
    ((runOp ht op).mask < 0 → (runOp ht op).table = table_empty) := by
  have hfz : (0 : Nat) < HTABLE_SIZE ht.shift := pow_pos (by norm_num) _
  refine ⟨?_, ?_, hE.2.2.1, ?_, ?_, ⟨rfl, rfl, rfl, rfl, rfl, rfl⟩,
    destroy_empty ht2, ?_⟩
  · unfold htable_find
    apply ht_findLoop_first_empty
    · omega
    · rw [hE.1]
      exact table_empty_getD _
  · unfold htable_delete
    apply ht_deleteLoop_first_empty
    · omega
    · rw [hE.1]
      exact table_empty_getD _
  · unfold htable_walkList
    rw [hE.2.2.2.2.1]
    rfl
  · unfold htable_yield
    rw [hE.2.2.2.2.1]
    show (List.drop iter (List.range ((-1 + 1 : Int)).toNat)).find?
      (fun j => decide (2 ≤ ht.table.getD j 0)) = none
    rw [show ((-1 + 1 : Int)).toNat = 0 from rfl]
    rw [show List.range 0 = [] from rfl, List.drop_nil]
    rfl
  · intro hm
    exact valid_mask_neg _ (runOp_valid ht op (Or.inl hE)) hm

/-- Witness for C10 on a freshly created table. -/
theorem claim_C10_witness :
    EmptyState (htable_create 0 demoIface) ∧
    htable_find (htable_create 0 demoIface) 7 = FindRes.nofind :=
  ⟨⟨rfl, rfl, rfl, rfl, rfl, rfl⟩,
    (claim_C10 (htable_create 0 demoIface) (htable_create 0 demoIface)
      7 0 0 demoIface HtOp.walk ⟨rfl, rfl, rfl, rfl, rfl, rfl⟩).1⟩

/-! ### Probe-loop positional lemmas for the round-trip property -/

theorem isequal_false_of_marker_ne (ht : Htable κ α) (i h : Nat) (key : κ)
    (hne : ht.table.getD i 0 ≠ h) : ht_isequal ht i h key = false := by
  unfold ht_isequal
  have hb : (ht.table.getD i 0 == h) = false := beq_eq_false_iff_ne.mpr hne
  rw [hb, Bool.false_and]

theorem forall2_exists_left_of_mem {β γ : Type} {R : β → γ → Prop}
    {l1 : List β} {l2 : List γ} (h : List.Forall₂ R l1 l2) :
    ∀ b ∈ l2, ∃ a ∈ l1, R a b := by
  induction h with
  | nil =>
    intro b hb
    cases hb
  | cons ha _ ih =>
    intro b hb
    rcases List.mem_cons.mp hb with hb1 | hb2
    · subst hb1
      exact ⟨_, List.mem_cons_self _ _, ha⟩
    · obtain ⟨a, ha1, ha2⟩ := ih b hb2
      exact ⟨a, List.mem_cons_of_mem _ ha1, ha2⟩

theorem goodEntries_comp_ne (hasher : HtableInterface κ α) (ps : List (κ × α))
    (hg : GoodEntries hasher ps) (n n' : Nat) (hn : n < ps.length)
    (hn' : n' < ps.length) (hne : n ≠ n') :
    hasher.comp ps[n].1 ps[n'].2 = false := by
  have hp := List.pairwise_iff_getElem.mp hg.2
  rcases Nat.lt_or_ge n n' with h1 | h1
  · exact (hp n n' hn hn' h1).1
  · have h2 : n' < n := by omega
    exact (hp n' n hn' hn h2).2

theorem alive_set_data (ht3 : Htable κ α) (i : Nat) (v : Option α)
    (hA : Alive ht3) : Alive { ht3 with data := ht3.data.set i v } := by
  refine ⟨hA.tlen, ?_, hA.hmask, hA.hshift, hA.hcap, hA.hcapnn, hA.hlen⟩
  show (ht3.data.set i v).length = 2 ^ ht3.shift
  rw [List.length_set]
  exact hA.dlen

theorem FullInv_nil_of_noUsed (ht3 : Htable κ α) (hA : Alive ht3)
    (hz : nonEmptyCount ht3.table = 0) : FullInv ht3 [] := by
  refine ⟨hA, [], List.nodup_nil, List.Forall₂.nil, ?_⟩
  intro i hi hmk
  have h1 := List.countP_eq_zero.mp hz
  have hilen : i < ht3.table.length := by
    rw [hA.tlen]
    exact hi
  have h2 : ht3.table.getD i 0 = ht3.table[i] := List.getD_eq_getElem _ 0 hilen
  have h3 := h1 ht3.table[i] (List.getElem_mem hilen)
  simp only [decide_eq_true_eq, ne_eq, not_not] at h3
  omega

theorem ht_findLoop_cases (ht : Htable κ α) (h : Nat) (key : κ)
    (hm : ht.mask = (2 ^ ht.shift : Int) - 1) :
    ∀ fuel idx i,
      idx < 2 ^ ht.shift →
      (ht_findLoop ht h key idx i fuel = FindRes.nofind) ∨
      (ht_findLoop ht h key idx i fuel = FindRes.diverge) ∨
      (∃ t, t < 2 ^ ht.shift ∧ 2 ≤ ht.table.getD t 0 ∧
        ht_isequal ht t h key = true ∧
        ht_findLoop ht h key idx i fuel = FindRes.found t) := by
  intro fuel
  induction fuel with
  | zero =>
    intro idx i hidx
    right; left
    rfl
  | succ n ih =>
    intro idx i hidx
    simp only [ht_findLoop]
    by_cases h0 : ht.table.getD idx 0 = 0
    · rw [if_pos h0]
      left
      rfl
    · rw [if_neg h0]
      have hlt2 : ht_step idx (i + 1) ht.mask < 2 ^ ht.shift := by
        rw [hm, ht_step_mask]
        exact Nat.mod_lt _ (pow_pos (by norm_num) _)
      by_cases h1 : ht.table.getD idx 0 = 1
      · rw [if_pos h1]
        exact ih (ht_step idx (i + 1) ht.mask) (i + 1) hlt2
      · rw [if_neg h1]
        by_cases h2 : ht_isequal ht idx h key = true
        · rw [if_pos h2]
          right; right
          exact ⟨idx, hidx, by omega, h2, rfl⟩
        · rw [if_neg h2]
          exact ih (ht_step idx (i + 1) ht.mask) (i + 1) hlt2

theorem htable_find_nofind (ht : Htable κ α) (key : κ)
    (hm : ht.mask = (2 ^ ht.shift : Int) - 1)
    (hem : ∃ e2, e2 < 2 ^ ht.shift ∧ ht.table.getD e2 0 = 0)
    (hnm : ∀ i, i < 2 ^ ht.shift →
      ht_isequal ht i (ht_hashof ht key) key = false) :
    htable_find ht key = FindRes.nofind := by
  have hsl : ht_start ht.shift (ht_hashof ht key) < 2 ^ ht.shift :=
    ht_start_lt ht.shift (ht_hashof ht key)
  have hde : htable_find ht key =
      ht_findLoop ht (ht_hashof ht key) key
        (ht_start ht.shift (ht_hashof ht key)) 0 (HTABLE_SIZE ht.shift) := rfl
  obtain ⟨e2, he1, he2⟩ := hem
  obtain ⟨d, hdlt, hdp⟩ :=
    probeSpec_surj ht.shift (ht_start ht.shift (ht_hashof ht key)) e2 he1
  have hex : ∃ d2, d2 < HTABLE_SIZE ht.shift ∧
      ht.table.getD (probeSpec ht.shift
        (ht_start ht.shift (ht_hashof ht key)) (0 + d2)) 0 = 0 := by
    refine ⟨d, hdlt, ?_⟩
    rw [Nat.zero_add, hdp]
    exact he2
  have hnd := ht_findLoop_ne_diverge ht (ht_hashof ht key) key
    (ht_start ht.shift (ht_hashof ht key)) hm (HTABLE_SIZE ht.shift) 0 hex
  rw [probeSpec_zero ht.shift (ht_start ht.shift (ht_hashof ht key)) hsl] at hnd
  rcases ht_findLoop_cases ht (ht_hashof ht key) key hm (HTABLE_SIZE ht.shift)
      (ht_start ht.shift (ht_hashof ht key)) 0 hsl with hc | hc | ⟨t, htl, _, hiseq, hc⟩
  · rw [hde, hc]
  · exact absurd hc hnd
  · have := hnm t htl
    rw [this] at hiseq
    exact absurd hiseq Bool.false_ne_true

theorem ht_findLoop_hit (ht : Htable κ α) (h : Nat) (key : κ) (start : Nat)
    (hm : ht.mask = (2 ^ ht.shift : Int) - 1) (p : Nat)
    (hne0 : ht.table.getD (probeSpec ht.shift start p) 0 ≠ 0)
    (hne1 : ht.table.getD (probeSpec ht.shift start p) 0 ≠ 1)
    (hiseq : ht_isequal ht (probeSpec ht.shift start p) h key = true)
    (hbef : ∀ m, m < p → ht.table.getD (probeSpec ht.shift start m) 0 ≠ 0 ∧
      ht_isequal ht (probeSpec ht.shift start m) h key = false) :
    ∀ fuel i, i ≤ p → p < i + fuel →
      ht_findLoop ht h key (probeSpec ht.shift start i) i fuel =
        FindRes.found (probeSpec ht.shift start p) := by
  intro fuel
  induction fuel with
  | zero =>
    intro i h1 h2
    omega
  | succ n ih =>
    intro i h1 h2
    simp only [ht_findLoop]
    rcases Nat.eq_or_lt_of_le h1 with he | hlt
    · subst he
      rw [if_neg hne0, if_neg hne1, if_pos hiseq]
    · obtain ⟨hb0, hbeq⟩ := hbef i hlt
      have hbeq2 : ¬ (ht_isequal ht (probeSpec ht.shift start i) h key = true) := by
        rw [hbeq]
        exact Bool.false_ne_true
      have hstep : ht_step (probeSpec ht.shift start i) (i + 1) ht.mask =
          probeSpec ht.shift start (i + 1) := by
        rw [hm]
        exact probeSpec_step ht.shift start i
      rw [if_neg hb0]
      by_cases hb1 : ht.table.getD (probeSpec ht.shift start i) 0 = 1
      · rw [if_pos hb1, hstep]
        exact ih (i + 1) (by omega) (by omega)
      · rw [if_neg hb1, if_neg hbeq2, hstep]
        exact ih (i + 1) (by omega) (by omega)

theorem ht_deleteLoop_hit (ht : Htable κ α) (h : Nat) (key : κ) (start : Nat)
    (hm : ht.mask = (2 ^ ht.shift : Int) - 1) (p : Nat)
    (hne0 : ht.table.getD (probeSpec ht.shift start p) 0 ≠ 0)
    (hne1 : ht.table.getD (probeSpec ht.shift start p) 0 ≠ 1)
    (hiseq : ht_isequal ht (probeSpec ht.shift start p) h key = true)
    (hbef : ∀ m, m < p → ht.table.getD (probeSpec ht.shift start m) 0 ≠ 0 ∧
      ht_isequal ht (probeSpec ht.shift start m) h key = false) :
    ∀ fuel i, i ≤ p → p < i + fuel →
      ht_deleteLoop ht h key (probeSpec ht.shift start i) i fuel =
        ({ ht with
           table := ht.table.set (probeSpec ht.shift start p) 1,
           len := ht.len - 1 }, FindRes.found (probeSpec ht.shift start p)) := by
  intro fuel
  induction fuel with
  | zero =>
    intro i h1 h2
    omega
  | succ n ih =>
    intro i h1 h2
    simp only [ht_deleteLoop]
    rcases Nat.eq_or_lt_of_le h1 with he | hlt
    · subst he
      rw [if_neg hne0, if_neg hne1, if_pos hiseq]
    · obtain ⟨hb0, hbeq⟩ := hbef i hlt
      have hbeq2 : ¬ (ht_isequal ht (probeSpec ht.shift start i) h key = true) := by
        rw [hbeq]
        exact Bool.false_ne_true
      have hstep : ht_step (probeSpec ht.shift start i) (i + 1) ht.mask =
          probeSpec ht.shift start (i + 1) := by
        rw [hm]
        exact probeSpec_step ht.shift start i
      rw [if_neg hb0]
      by_cases hb1 : ht.table.getD (probeSpec ht.shift start i) 0 = 1
      · rw [if_pos hb1, hstep]
        exact ih (i + 1) (by omega) (by omega)
      · rw [if_neg hb1, if_neg hbeq2, hstep]
        exact ih (i + 1) (by omega) (by omega)

theorem ht_enterLoop_fresh (ht : Htable κ α) (h : Nat) (key : κ) (start : Nat)
    (hm : ht.mask = (2 ^ ht.shift : Int) - 1)
    (hnm : ∀ i2, i2 < 2 ^ ht.shift → ht_isequal ht i2 h key = false) :
    ∀ fuel i jt,
      (∃ d, d < fuel ∧ ht.table.getD (probeSpec ht.shift start (i + d)) 0 = 0) →
      ((jt = none ∧
        ∀ m, m < i → 2 ≤ ht.table.getD (probeSpec ht.shift start m) 0) ∨
       (∃ j q0, jt = some j ∧ q0 < i ∧ probeSpec ht.shift start q0 = j ∧
         ht.table.getD j 0 = 1 ∧
         ∀ m, m < q0 → 2 ≤ ht.table.getD (probeSpec ht.shift start m) 0)) →
      ∃ t q, q < i + fuel ∧ probeSpec ht.shift start q = t ∧
        (∀ m, m < q → ht.table.getD (probeSpec ht.shift start m) 0 ≠ 0) ∧
        ((ht.table.getD t 0 = 0 ∧
          ht_enterLoop ht h key (probeSpec ht.shift start i) i jt fuel =
            ({ ht with
               table := ht.table.set t h, len := ht.len + 1,
               cap := ht.cap - 1 }, EnterRes.inserted t)) ∨
         (ht.table.getD t 0 = 1 ∧
          ht_enterLoop ht h key (probeSpec ht.shift start i) i jt fuel =
            ({ ht with table := ht.table.set t h, len := ht.len + 1 },
              EnterRes.inserted t))) := by
  intro fuel
  induction fuel with
  | zero =>
    intro i jt hex _
    obtain ⟨d, hd, _⟩ := hex
    omega
  | succ n ih =>
    intro i jt hex hjt
    obtain ⟨d, hd, hem⟩ := hex
    simp only [ht_enterLoop]
    by_cases h0 : ht.table.getD (probeSpec ht.shift start i) 0 = 0
    · rw [if_pos h0]
      rcases hjt with ⟨hjn, hall⟩ | ⟨j, q0, hjs, hq0, hpq0, hj1, hall⟩
      · subst hjn
        refine ⟨probeSpec ht.shift start i, i, by omega, rfl, ?_, Or.inl ⟨h0, rfl⟩⟩
        intro m hm2
        have := hall m hm2
        omega
      · subst hjs
        refine ⟨j, q0, by omega, hpq0, ?_, Or.inr ⟨hj1, rfl⟩⟩
        intro m hm2
        have := hall m hm2
        omega
    · rw [if_neg h0]
      have hd0 : d ≠ 0 := by
        intro hdz
        rw [hdz, Nat.add_zero] at hem
        exact h0 hem
      have hstep : ht_step (probeSpec ht.shift start i) (i + 1) ht.mask =
          probeSpec ht.shift start (i + 1) := by
        rw [hm]
        exact probeSpec_step ht.shift start i
      have hnext : ∃ d2, d2 < n ∧
          ht.table.getD (probeSpec ht.shift start (i + 1 + d2)) 0 = 0 := by
        refine ⟨d - 1, by omega, ?_⟩
        have h12 : i + 1 + (d - 1) = i + d := by omega
        rw [h12]
        exact hem
      by_cases h1 : ht.table.getD (probeSpec ht.shift start i) 0 = 1
      · rw [if_pos h1, hstep]
        rcases hjt with ⟨hjn, hall⟩ | ⟨j, q0, hjs, hq0, hpq0, hj1, hall⟩
        · subst hjn
          obtain ⟨t, q, hq, hpt, hre, hcase⟩ := ih (i + 1) _ hnext
            (Or.inr ⟨probeSpec ht.shift start i, i, rfl, by omega, rfl, h1, hall⟩)
          exact ⟨t, q, by omega, hpt, hre, hcase⟩
        · subst hjs
          obtain ⟨t, q, hq, hpt, hre, hcase⟩ := ih (i + 1) _ hnext
            (Or.inr ⟨j, q0, rfl, by omega, hpq0, hj1, hall⟩)
          exact ⟨t, q, by omega, hpt, hre, hcase⟩
      · rw [if_neg h1]
        have hiseqf : ht_isequal ht (probeSpec ht.shift start i) h key = false :=
          hnm _ (probeSpec_lt _ _ _)
        have hiseqn : ¬ (ht_isequal ht (probeSpec ht.shift start i) h key = true) := by
          rw [hiseqf]
          exact Bool.false_ne_true
        rw [if_neg hiseqn, hstep]
        have hjt2 : (jt = none ∧
            ∀ m, m < i + 1 → 2 ≤ ht.table.getD (probeSpec ht.shift start m) 0) ∨
            (∃ j q0, jt = some j ∧ q0 < i + 1 ∧ probeSpec ht.shift start q0 = j ∧
              ht.table.getD j 0 = 1 ∧
              ∀ m, m < q0 → 2 ≤ ht.table.getD (probeSpec ht.shift start m) 0) := by
          rcases hjt with ⟨hjn, hall⟩ | ⟨j, q0, hjs, hq0, hpq0, hj1, hall⟩
          · left
            refine ⟨hjn, ?_⟩
            intro m hm2
            rcases Nat.lt_or_ge m i with h5 | h5
            · exact hall m h5
            · have hmi : m = i := by omega
              subst hmi
              omega
          · right
            exact ⟨j, q0, hjs, by omega, hpq0, hj1, hall⟩
        obtain ⟨t, q, hq, hpt, hre, hcase⟩ := ih (i + 1) jt hnext hjt2
        exact ⟨t, q, by omega, hpt, hre, hcase⟩

theorem FullInv_insert_slot (ht2 st3 : Htable κ α) (ps : List (κ × α))
    (k : κ) (e : α) (slots : List Nat) (t q : Nat)
    (hA3 : Alive st3)
    (h3t : st3.table = ht2.table.set t (ht_hashof ht2 k))
    (h3d : st3.data = ht2.data.set t (some e))
    (h3s : st3.shift = ht2.shift)
    (h3seed : st3.seed = ht2.seed)
    (h3h : st3.hasher = ht2.hasher)
    (htl2 : ht2.table.length = 2 ^ ht2.shift)
    (hdl2 : ht2.data.length = 2 ^ ht2.shift)
    (hnd : slots.Nodup)
    (hf2 : List.Forall₂ (fun q2 t2 => Stored ht2 q2.1 q2.2 t2) ps slots)
    (hsurj : ∀ i, i < 2 ^ ht2.shift → 2 ≤ ht2.table.getD i 0 → i ∈ slots)
    (htlt : t < 2 ^ ht2.shift) (hmkle : ht2.table.getD t 0 ≤ 1)
    (hq2s : q < 2 ^ ht2.shift)
    (hpt : probeSpec ht2.shift (ht_start ht2.shift (ht_hashof ht2 k)) q = t)
    (hre : ∀ m, m < q →
      ht2.table.getD (probeSpec ht2.shift (ht_start ht2.shift (ht_hashof ht2 k)) m) 0 ≠ 0) :
    FullInv st3 (ps ++ [(k, e)]) := by
  have hhash : ∀ k2 : κ, ht_hashof st3 k2 = ht_hashof ht2 k2 := by
    intro k2
    unfold ht_hashof
    rw [h3h, h3seed]
  have hh2 : 2 ≤ ht_hashof ht2 k := ht_hashof_ge_two ht2 k
  have htmem : t ∉ slots := by
    intro hmem
    obtain ⟨q2, _, hq2st⟩ := forall2_exists_left_of_mem hf2 t hmem
    have h5 := hq2st.2.1
    have h6 := ht_hashof_ge_two ht2 q2.1
    omega
  refine ⟨hA3, slots ++ [t], ?_, ?_, ?_⟩
  · refine hnd.append (List.nodup_singleton t) ?_
    intro a ha hb
    rw [List.mem_singleton] at hb
    subst hb
    exact htmem ha
  · refine List.rel_append (hf2.imp ?_) (List.Forall₂.cons ?_ List.Forall₂.nil)
    · intro q2 t2 hst
      have ht2ne : t ≠ t2 := by
        intro heq
        subst heq
        have h5 := hst.2.1
        have h6 := ht_hashof_ge_two ht2 q2.1
        omega
      obtain ⟨hlt2, hmk2, hrec2, p, hp1, hp2, hp3⟩ := hst
      refine ⟨by rw [h3s]; exact hlt2, ?_, ?_, p, by rw [h3s]; exact hp1, ?_, ?_⟩
      · rw [h3t, hhash, getD_set_ne _ _ _ _ _ ht2ne]
        exact hmk2
      · rw [h3d, getD_set_ne _ _ _ _ _ ht2ne]
        exact hrec2
      · rw [hhash, h3s]
        exact hp2
      · intro m hmp
        rw [hhash, h3s, h3t]
        by_cases hpm : probeSpec ht2.shift (ht_start ht2.shift (ht_hashof ht2 q2.1)) m = t
        · rw [hpm, getD_set_self _ _ _ _ (by rw [htl2]; exact htlt)]
          omega
        · rw [getD_set_ne _ _ _ _ _ (fun hx => hpm hx.symm)]
          exact hp3 m hmp
    · refine ⟨by rw [h3s]; exact htlt, ?_, ?_, q, by rw [h3s]; exact hq2s, ?_, ?_⟩
      · rw [h3t, hhash, getD_set_self _ _ _ _ (by rw [htl2]; exact htlt)]
      · rw [h3d, getD_set_self _ _ _ _ (by rw [hdl2]; exact htlt)]
      · rw [hhash, h3s]
        exact hpt
      · intro m hmq
        rw [hhash, h3s, h3t]
        by_cases hpm : probeSpec ht2.shift (ht_start ht2.shift (ht_hashof ht2 k)) m = t
        · rw [hpm, getD_set_self _ _ _ _ (by rw [htl2]; exact htlt)]
          omega
        · rw [getD_set_ne _ _ _ _ _ (fun hx => hpm hx.symm)]
          exact hre m hmq
  · intro i hi hmk
    rw [h3s] at hi
    rw [h3t] at hmk
    by_cases hit : i = t
    · subst hit
      exact List.mem_append.mpr (Or.inr (List.mem_singleton.mpr rfl))
    · rw [getD_set_ne _ _ _ _ _ (fun hx => hit hx.symm)] at hmk
      exact List.mem_append.mpr (Or.inl (hsurj i hi hmk))

theorem no_isequal_of_fresh (ht2 : Htable κ α) (ps : List (κ × α)) (k : κ)
    (hinv : FullInv ht2 ps)
    (hfr : ∀ q ∈ ps, ht2.hasher.comp k q.2 = false) :
    ∀ i, i < 2 ^ ht2.shift → ht_isequal ht2 i (ht_hashof ht2 k) k = false := by
  obtain ⟨hA, slots, _, hf2, hsurj⟩ := hinv
  intro i hi
  have hh2 : 2 ≤ ht_hashof ht2 k := ht_hashof_ge_two ht2 k
  by_cases hmk : 2 ≤ ht2.table.getD i 0
  · obtain ⟨q2, hq2mem, hq2st⟩ :=
      forall2_exists_left_of_mem hf2 i (hsurj i hi hmk)
    have hrec := hq2st.2.2.1
    have hcf := hfr q2 hq2mem
    unfold ht_isequal
    rw [hrec]
    show (ht2.table.getD i 0 == ht_hashof ht2 k && ht2.hasher.comp k q2.2) = false
    rw [hcf, Bool.and_false]
  · exact isequal_false_of_marker_ne ht2 i (ht_hashof ht2 k) k (by omega)

theorem FullInv_enterProbe_fresh (ht2 : Htable κ α) (ps : List (κ × α))
    (k : κ) (e : α)
    (hinv : FullInv ht2 ps) (hcap : 0 < ht2.cap)
    (hnm : ∀ i, i < 2 ^ ht2.shift → ht_isequal ht2 i (ht_hashof ht2 k) k = false) :
    ∃ t,
      (ht_enterProbe ht2 k).2 = EnterRes.inserted t ∧
      FullInv { (ht_enterProbe ht2 k).1 with
        data := (ht_enterProbe ht2 k).1.data.set t (some e) } (ps ++ [(k, e)]) ∧
      (ht_enterProbe ht2 k).1.hasher = ht2.hasher := by
  obtain ⟨hA, slots, hnd, hf2, hsurj⟩ := hinv
  have hh2 : 2 ≤ ht_hashof ht2 k := ht_hashof_ge_two ht2 k
  have hshift2 : 2 ≤ ht2.shift := by
    have := hA.hshift
    unfold HTABLE_SHIFT_MIN at this
    omega
  have hem : ∃ e2, e2 < 2 ^ ht2.shift ∧ ht2.table.getD e2 0 = 0 := by
    have hlt : nonEmptyCount ht2.table < ht2.table.length := by
      have h1 := hA.hcap
      have h2 := HTABLE_CAP_lt_size ht2.shift hshift2
      rw [hA.tlen]
      omega
    obtain ⟨e2, he1, he2⟩ := exists_empty_slot ht2.table hlt
    refine ⟨e2, ?_, he2⟩
    rw [hA.tlen] at he1
    exact he1
  obtain ⟨e2, he1, he2⟩ := hem
  obtain ⟨d, hdlt, hdp⟩ :=
    probeSpec_surj ht2.shift (ht_start ht2.shift (ht_hashof ht2 k)) e2 he1
  have hex : ∃ d2, d2 < HTABLE_SIZE ht2.shift ∧
      ht2.table.getD (probeSpec ht2.shift
        (ht_start ht2.shift (ht_hashof ht2 k)) (0 + d2)) 0 = 0 := by
    refine ⟨d, hdlt, ?_⟩
    rw [Nat.zero_add, hdp]
    exact he2
  obtain ⟨t, q, hqlt, hpt, hre, hcase⟩ := ht_enterLoop_fresh ht2 (ht_hashof ht2 k) k
    (ht_start ht2.shift (ht_hashof ht2 k)) hA.hmask hnm (HTABLE_SIZE ht2.shift) 0 none
    hex (Or.inl ⟨rfl, by intro m hm0; exact absurd hm0 (Nat.not_lt_zero m)⟩)
  have hs0 : probeSpec ht2.shift (ht_start ht2.shift (ht_hashof ht2 k)) 0 =
      ht_start ht2.shift (ht_hashof ht2 k) :=
    probeSpec_zero _ _ (ht_start_lt _ _)
  rw [hs0] at hcase
  have hde : ht_enterProbe ht2 k = ht_enterLoop ht2 (ht_hashof ht2 k) k
      (ht_start ht2.shift (ht_hashof ht2 k)) 0 none (HTABLE_SIZE ht2.shift) := rfl
  have htlt : t < 2 ^ ht2.shift := by
    rw [← hpt]
    exact probeSpec_lt _ _ _
  have hq2s : q < 2 ^ ht2.shift := by
    unfold HTABLE_SIZE at hqlt
    omega
  have hAprobe := (ht_enterProbe_alive ht2 k hA hcap).1
  rcases hcase with ⟨hmk0, heq⟩ | ⟨hmk1, heq⟩
  · have heq2 : ht_enterProbe ht2 k =
        ({ ht2 with
           table := ht2.table.set t (ht_hashof ht2 k), len := ht2.len + 1,
           cap := ht2.cap - 1 }, EnterRes.inserted t) := hde.trans heq
    rw [heq2] at hAprobe ⊢
    refine ⟨t, rfl, ?_, rfl⟩
    exact FullInv_insert_slot ht2 _ ps k e slots t q
      (alive_set_data _ t (some e) hAprobe) rfl rfl rfl rfl rfl
      hA.tlen hA.dlen hnd hf2 hsurj htlt (by omega) hq2s hpt hre
  · have heq2 : ht_enterProbe ht2 k =
        ({ ht2 with
           table := ht2.table.set t (ht_hashof ht2 k),
           len := ht2.len + 1 }, EnterRes.inserted t) := hde.trans heq
    rw [heq2] at hAprobe ⊢
    refine ⟨t, rfl, ?_, rfl⟩
    exact FullInv_insert_slot ht2 _ ps k e slots t q
      (alive_set_data _ t (some e) hAprobe) rfl rfl rfl rfl rfl
      hA.tlen hA.dlen hnd hf2 hsurj htlt (by omega) hq2s hpt hre

theorem FullInv_probe_profile (ht2 : Htable κ α) (ps : List (κ × α))
    (hinv : FullInv ht2 ps) (hg : GoodEntries ht2.hasher ps)
    (n : Nat) (hn : n < ps.length) :
    ∃ i p, i < 2 ^ ht2.shift ∧ p < 2 ^ ht2.shift ∧
      probeSpec ht2.shift (ht_start ht2.shift (ht_hashof ht2 ps[n].1)) p = i ∧
      2 ≤ ht2.table.getD i 0 ∧
      ht_isequal ht2 i (ht_hashof ht2 ps[n].1) ps[n].1 = true ∧
      ht2.data.getD i none = some ps[n].2 ∧
      (∀ m, m < p → ht2.table.getD
        (probeSpec ht2.shift (ht_start ht2.shift (ht_hashof ht2 ps[n].1)) m) 0 ≠ 0) ∧
      (∀ i2, i2 < 2 ^ ht2.shift → i2 ≠ i →
        ht_isequal ht2 i2 (ht_hashof ht2 ps[n].1) ps[n].1 = false) := by
  obtain ⟨hA, slots, hnd, hf2, hsurj⟩ := hinv
  have hlen := hf2.length_eq
  have hn2 : n < slots.length := by omega
  have hst : Stored ht2 ps[n].1 ps[n].2 slots[n] := hf2.get hn hn2
  obtain ⟨hilt, hmk, hrec, p, hp1, hp2, hp3⟩ := hst
  have hh2 : 2 ≤ ht_hashof ht2 ps[n].1 := ht_hashof_ge_two ht2 ps[n].1
  have hcompn : ht2.hasher.comp ps[n].1 ps[n].2 = true :=
    hg.1 ps[n] (List.getElem_mem hn)
  have hiseq : ht_isequal ht2 slots[n] (ht_hashof ht2 ps[n].1) ps[n].1 = true := by
    unfold ht_isequal
    rw [hrec]
    show (ht2.table.getD slots[n] 0 == ht_hashof ht2 ps[n].1 &&
      ht2.hasher.comp ps[n].1 ps[n].2) = true
    rw [hmk, hcompn, Bool.and_true]
    exact beq_self_eq_true _
  have hother : ∀ i2, i2 < 2 ^ ht2.shift → i2 ≠ slots[n] →
      ht_isequal ht2 i2 (ht_hashof ht2 ps[n].1) ps[n].1 = false := by
    intro i2 hi2 hne
    by_cases hmk2 : 2 ≤ ht2.table.getD i2 0
    · obtain ⟨n', hn'slots, hgn'⟩ := List.mem_iff_getElem.mp (hsurj i2 hi2 hmk2)
      have hn'ps : n' < ps.length := by omega
      have hst' : Stored ht2 ps[n'].1 ps[n'].2 slots[n'] := hf2.get hn'ps hn'slots
      rw [hgn'] at hst'
      have hnn' : n ≠ n' := by
        intro heqn
        subst heqn
        rw [hgn'] at hne
        exact hne rfl
      have hcf : ht2.hasher.comp ps[n].1 ps[n'].2 = false :=
        goodEntries_comp_ne ht2.hasher ps hg n n' hn hn'ps hnn'
      unfold ht_isequal
      rw [hst'.2.2.1]
      show (ht2.table.getD i2 0 == ht_hashof ht2 ps[n].1 &&
        ht2.hasher.comp ps[n].1 ps[n'].2) = false
      rw [hcf, Bool.and_false]
    · exact isequal_false_of_marker_ne ht2 i2 (ht_hashof ht2 ps[n].1) ps[n].1
        (by omega)
  refine ⟨slots[n], p, hilt, hp1, hp2, by rw [hmk]; exact hh2, hiseq, hrec,
    hp3, hother⟩

theorem FullInv_find_found (ht2 : Htable κ α) (ps : List (κ × α))
    (hinv : FullInv ht2 ps) (hg : GoodEntries ht2.hasher ps)
    (n : Nat) (hn : n < ps.length) :
    ∃ i, htable_find ht2 ps[n].1 = FindRes.found i ∧
      ht2.data.getD i none = some ps[n].2 := by
  obtain ⟨i, p, hilt, hplt, hpi, hmk2, hiseq, hrec, hreach, hother⟩ :=
    FullInv_probe_profile ht2 ps hinv hg n hn
  have hA := hinv.1
  have hbef : ∀ m, m < p →
      ht2.table.getD (probeSpec ht2.shift
        (ht_start ht2.shift (ht_hashof ht2 ps[n].1)) m) 0 ≠ 0 ∧
      ht_isequal ht2 (probeSpec ht2.shift
        (ht_start ht2.shift (ht_hashof ht2 ps[n].1)) m)
        (ht_hashof ht2 ps[n].1) ps[n].1 = false := by
    intro m hm
    refine ⟨hreach m hm, ?_⟩
    apply hother
    · exact probeSpec_lt _ _ _
    · intro heq
      have h5 := probeSpec_inj ht2.shift
        (ht_start ht2.shift (ht_hashof ht2 ps[n].1)) m p (by omega) hplt
        (by rw [heq, hpi])
      omega
  have hhit := ht_findLoop_hit ht2 (ht_hashof ht2 ps[n].1) ps[n].1
    (ht_start ht2.shift (ht_hashof ht2 ps[n].1)) hA.hmask p
    (by rw [hpi]; omega) (by rw [hpi]; omega) (by rw [hpi]; exact hiseq) hbef
    (HTABLE_SIZE ht2.shift) 0 (Nat.zero_le p)
    (by unfold HTABLE_SIZE; omega)
  rw [probeSpec_zero _ _ (ht_start_lt _ _), hpi] at hhit
  exact ⟨i, hhit, hrec⟩

theorem find_nofind_after_tomb (ht2 : Htable κ α) (key : κ) (i : Nat)
    (hA : Alive ht2) (hilt : i < 2 ^ ht2.shift) (hmk2 : 2 ≤ ht2.table.getD i 0)
    (hother : ∀ i2, i2 < 2 ^ ht2.shift → i2 ≠ i →
      ht_isequal ht2 i2 (ht_hashof ht2 key) key = false) :
    htable_find { ht2 with table := ht2.table.set i 1, len := ht2.len - 1 } key =
      FindRes.nofind := by
  have hh2 : 2 ≤ ht_hashof ht2 key := ht_hashof_ge_two ht2 key
  have hshift2 : 2 ≤ ht2.shift := by
    have := hA.hshift
    unfold HTABLE_SHIFT_MIN at this
    omega
  have hem : ∃ e2, e2 < 2 ^ ht2.shift ∧ ht2.table.getD e2 0 = 0 := by
    have hlt : nonEmptyCount ht2.table < ht2.table.length := by
      have h1 := hA.hcap
      have h2 := HTABLE_CAP_lt_size ht2.shift hshift2
      have h3 := hA.hcapnn
      rw [hA.tlen]
      omega
    obtain ⟨e2, he1, he2⟩ := exists_empty_slot ht2.table hlt
    refine ⟨e2, ?_, he2⟩
    rw [hA.tlen] at he1
    exact he1
  obtain ⟨e2, he1, he2⟩ := hem
  apply htable_find_nofind
  · exact hA.hmask
  · refine ⟨e2, he1, ?_⟩
    show (ht2.table.set i 1).getD e2 0 = 0
    have hne : i ≠ e2 := by
      intro hx
      rw [hx] at hmk2
      omega
    rw [getD_set_ne _ _ _ _ _ hne]
    exact he2
  · intro i2 hi2
    by_cases hii : i2 = i
    · subst hii
      apply isequal_false_of_marker_ne
      show (ht2.table.set i2 1).getD i2 0 ≠ ht_hashof ht2 key
      rw [getD_set_self _ _ _ _ (by rw [hA.tlen]; exact hilt)]
      omega
    · show ht_isequal
        { ht2 with table := ht2.table.set i 1, len := ht2.len - 1 } i2
        (ht_hashof ht2 key) key = false
      have hsame : ht_isequal
          { ht2 with table := ht2.table.set i 1, len := ht2.len - 1 } i2
          (ht_hashof ht2 key) key =
          ht_isequal ht2 i2 (ht_hashof ht2 key) key := by
        unfold ht_isequal
        show ((ht2.table.set i 1).getD i2 0 == ht_hashof ht2 key &&
          (match ht2.data.getD i2 none with
           | some r => ht2.hasher.comp key r
           | none => false)) = _
        rw [getD_set_ne _ _ _ _ _ (fun hx => hii hx.symm)]
      rw [hsame]
      exact hother i2 hi2 hii

theorem FullInv_delete_find (ht2 : Htable κ α) (ps : List (κ × α))
    (hinv : FullInv ht2 ps) (hg : GoodEntries ht2.hasher ps)
    (n : Nat) (hn : n < ps.length) :
    htable_find (htable_delete ht2 ps[n].1).1 ps[n].1 = FindRes.nofind := by
  obtain ⟨i, p, hilt, hplt, hpi, hmk2, hiseq, hrec, hreach, hother⟩ :=
    FullInv_probe_profile ht2 ps hinv hg n hn
  have hA := hinv.1
  have hbef : ∀ m, m < p →
      ht2.table.getD (probeSpec ht2.shift
        (ht_start ht2.shift (ht_hashof ht2 ps[n].1)) m) 0 ≠ 0 ∧
      ht_isequal ht2 (probeSpec ht2.shift
        (ht_start ht2.shift (ht_hashof ht2 ps[n].1)) m)
        (ht_hashof ht2 ps[n].1) ps[n].1 = false := by
    intro m hm
    refine ⟨hreach m hm, ?_⟩
    apply hother
    · exact probeSpec_lt _ _ _
    · intro heq
      have h5 := probeSpec_inj ht2.shift
        (ht_start ht2.shift (ht_hashof ht2 ps[n].1)) m p (by omega) hplt
        (by rw [heq, hpi])
      omega
  have hdel := ht_deleteLoop_hit ht2 (ht_hashof ht2 ps[n].1) ps[n].1
    (ht_start ht2.shift (ht_hashof ht2 ps[n].1)) hA.hmask p
    (by rw [hpi]; omega) (by rw [hpi]; omega) (by rw [hpi]; exact hiseq) hbef
    (HTABLE_SIZE ht2.shift) 0 (Nat.zero_le p)
    (by unfold HTABLE_SIZE; omega)
  rw [probeSpec_zero _ _ (ht_start_lt _ _), hpi] at hdel
  have hdeq : htable_delete ht2 ps[n].1 =
      ({ ht2 with table := ht2.table.set i 1, len := ht2.len - 1 },
        FindRes.found i) := hdel
  rw [hdeq]
  exact find_nofind_after_tomb ht2 ps[n].1 i hA hilt hmk2 hother

theorem rehashPrefix_struct (ht : Htable κ α) (s2 : Nat) (hs2 : 2 ≤ s2)
    (hA : Alive ht) (hlc : ht.len ≤ HTABLE_CAP s2) (n : Nat)
    (hn : n ≤ 2 ^ ht.shift) :
    (rehashPrefix ht s2 n).shift = s2 ∧
    (rehashPrefix ht s2 n).mask = (2 ^ s2 : Int) - 1 ∧
    (rehashPrefix ht s2 n).table.length = 2 ^ s2 ∧
    (rehashPrefix ht s2 n).data.length = 2 ^ s2 ∧
    noTomb (rehashPrefix ht s2 n).table ∧
    usedCount (rehashPrefix ht s2 n).table =
      (List.range n).countP (fun j => decide (2 ≤ ht.table.getD j 0)) := by
  have hm1 : (ht.mask + 1).toNat = 2 ^ ht.shift := by
    rw [hA.hmask]
    have h2 : (0 : Int) < 2 ^ ht.shift := pow_pos (by norm_num) _
    have h4 : ((2 : Int) ^ ht.shift) = ((2 ^ ht.shift : Nat) : Int) := by
      push_cast
      ring
    omega
  have htotal : (List.range (2 ^ ht.shift)).countP
      (fun j => decide (2 ≤ ht.table.getD j 0)) = ht.len := by
    have h5 := valid_rehash_count ht (Or.inr hA)
    rw [hm1] at h5
    exact h5
  have hcnt : (List.range n).countP (fun j => decide (2 ≤ ht.table.getD j 0)) ≤
      ht.len := by
    rw [← htotal]
    exact List.Sublist.countP_le _ (List.range_sublist.mpr hn)
  have hin1 : (ht_rehashInit ht s2).shift = s2 := rfl
  have hin2 : (ht_rehashInit ht s2).mask = (2 ^ s2 : Int) - 1 := by
    show ((HTABLE_SIZE s2 : Nat) : Int) - 1 = (2 ^ s2 : Int) - 1
    unfold HTABLE_SIZE
    push_cast
    ring
  have hin3 : (ht_rehashInit ht s2).table.length = 2 ^ s2 := by
    simp [ht_rehashInit, HTABLE_SIZE]
  have hin4 : (ht_rehashInit ht s2).data.length = 2 ^ s2 := by
    simp [ht_rehashInit, HTABLE_SIZE]
  have hin5 : noTomb (ht_rehashInit ht s2).table := by
    intro a ha
    have h7 := List.eq_of_mem_replicate ha
    omega
  have hin6 : usedCount (ht_rehashInit ht s2).table = 0 := by
    unfold usedCount
    apply List.countP_eq_zero.mpr
    intro a ha
    have h7 := List.eq_of_mem_replicate ha
    subst h7
    simp
  obtain ⟨f1, f2, f3, f4, f5, f6, _, _, _, _⟩ :=
    rehash_fold_lite ht s2 hs2 (List.range n) (ht_rehashInit ht s2)
      hin1 hin2 hin3 hin4 hin5 (by rw [hin6]; omega)
  refine ⟨f1, f2, f3, f4, f5, ?_⟩
  unfold rehashPrefix
  rw [f6, hin6]
  omega

theorem rehash_fold_slots (ht : Htable κ α) (s2 : Nat) (hs2 : 2 ≤ s2)
    (hA : Alive ht) (hlc : ht.len ≤ HTABLE_CAP s2) :
    ∀ n, n ≤ 2 ^ ht.shift →
      ∃ g : Nat → Option Nat,
        (∀ oj, n ≤ oj → g oj = none) ∧
        (∀ oj, ¬ 2 ≤ ht.table.getD oj 0 → g oj = none) ∧
        (∀ oj, oj < n → 2 ≤ ht.table.getD oj 0 → ∃ t2,
          g oj = some t2 ∧ t2 < 2 ^ s2 ∧
          (rehashPrefix ht s2 n).table.getD t2 0 = ht.table.getD oj 0 ∧
          (rehashPrefix ht s2 n).data.getD t2 none = ht.data.getD oj none ∧
          ∃ p, p < 2 ^ s2 ∧
            probeSpec s2 (ht_start s2 (ht.table.getD oj 0)) p = t2 ∧
            ∀ m, m < p →
              (rehashPrefix ht s2 n).table.getD
                (probeSpec s2 (ht_start s2 (ht.table.getD oj 0)) m) 0 ≠ 0) ∧
        (∀ oj1 oj2 t2, g oj1 = some t2 → g oj2 = some t2 → oj1 = oj2) ∧
        (∀ t2, t2 < 2 ^ s2 → 2 ≤ (rehashPrefix ht s2 n).table.getD t2 0 →
          ∃ oj, oj < n ∧ g oj = some t2) := by
  intro n
  induction n with
  | zero =>
    intro _
    refine ⟨fun _ => none, fun _ _ => rfl, fun _ _ => rfl, ?_, ?_, ?_⟩
    · intro oj hoj _
      omega
    · intro oj1 oj2 t2 ha _
      exact absurd ha (by simp)
    · intro t2 ht2 hused
      exfalso
      have h0 : (rehashPrefix ht s2 0).table.getD t2 0 = 0 := by
        show (List.replicate (HTABLE_SIZE s2) 0).getD t2 0 = 0
        by_cases hlt : t2 < (List.replicate (HTABLE_SIZE s2) (0 : Nat)).length
        · rw [List.getD_eq_getElem _ 0 hlt]
          simp
        · rw [List.getD_eq_default _ 0 (by omega)]
      omega
  | succ n ih =>
    intro hn1
    have hn : n ≤ 2 ^ ht.shift := by omega
    obtain ⟨g, c1, c2, c3, c4, c5⟩ := ih hn
    obtain ⟨e1, e2, e3, e4, e5, e6⟩ := rehashPrefix_struct ht s2 hs2 hA hlc n hn
    have hstepeq : rehashPrefix ht s2 (n + 1) =
        ht_rehashStep ht (rehashPrefix ht s2 n) n := by
      unfold rehashPrefix
      rw [List.range_succ, List.foldl_append]
      simp only [List.foldl_cons, List.foldl_nil]
    by_cases hg : 2 ≤ ht.table.getD n 0
    · -- slot n is reinserted at the first EMPTY slot of its probe sequence
      have hem : ∃ e0, e0 < 2 ^ (rehashPrefix ht s2 n).shift ∧
          (rehashPrefix ht s2 n).table.getD e0 0 = 0 := by
        have hm1 : (ht.mask + 1).toNat = 2 ^ ht.shift := by
          rw [hA.hmask]
          have h2 : (0 : Int) < 2 ^ ht.shift := pow_pos (by norm_num) _
          have h4 : ((2 : Int) ^ ht.shift) = ((2 ^ ht.shift : Nat) : Int) := by
            push_cast
            ring
          omega
        have htotal : (List.range (2 ^ ht.shift)).countP
            (fun j => decide (2 ≤ ht.table.getD j 0)) = ht.len := by
          have h5 := valid_rehash_count ht (Or.inr hA)
          rw [hm1] at h5
          exact h5
        have hcnt : (List.range n).countP
            (fun j => decide (2 ≤ ht.table.getD j 0)) ≤ ht.len := by
          rw [← htotal]
          exact List.Sublist.countP_le _ (List.range_sublist.mpr hn)
        have hne : nonEmptyCount (rehashPrefix ht s2 n).table =
            usedCount (rehashPrefix ht s2 n).table := noTomb_counts _ e5
        have hlt : nonEmptyCount (rehashPrefix ht s2 n).table <
            (rehashPrefix ht s2 n).table.length := by
          rw [hne, e3, e6]
          have h7 := HTABLE_CAP_lt_size s2 hs2
          omega
        obtain ⟨e0, he1, he2⟩ := exists_empty_slot _ hlt
        refine ⟨e0, ?_, he2⟩
        rw [e1, ← e3]
        exact he1
      have hmm : (rehashPrefix ht s2 n).mask =
          (2 ^ (rehashPrefix ht s2 n).shift : Int) - 1 := by
        rw [e1]
        exact e2
      obtain ⟨t, p, hp1, ht1, hpt, htempty, hreach2, heqpl⟩ :=
        ht_place_spec (rehashPrefix ht s2 n) (ht.table.getD n 0)
          (ht.data.getD n none) hmm hem
      rw [e1] at hp1 ht1
      simp only [e1] at hpt hreach2
      have hstepeq2 : rehashPrefix ht s2 (n + 1) =
          { rehashPrefix ht s2 n with
            table := (rehashPrefix ht s2 n).table.set t (ht.table.getD n 0),
            data := (rehashPrefix ht s2 n).data.set t (ht.data.getD n none) } := by
        rw [hstepeq]
        unfold ht_rehashStep
        rw [if_pos hg]
        exact heqpl
      have hgsome : ∀ oj t3, g oj = some t3 →
          oj < n ∧ 2 ≤ ht.table.getD oj 0 := by
        intro oj t3 hgo
        constructor
        · by_contra hno
          rw [c1 oj (by omega)] at hgo
          exact Option.noConfusion hgo
        · by_contra hno
          rw [c2 oj hno] at hgo
          exact Option.noConfusion hgo
      refine ⟨fun oj => if oj = n then some t else g oj, ?_, ?_, ?_, ?_, ?_⟩
      · intro oj hoj
        show (if oj = n then some t else g oj) = none
        rw [if_neg (by omega)]
        exact c1 oj (by omega)
      · intro oj hno
        show (if oj = n then some t else g oj) = none
        rw [if_neg (by intro hx; rw [hx] at hno; exact hno hg)]
        exact c2 oj hno
      · intro oj hoj hused
        show ∃ t2, (if oj = n then some t else g oj) = some t2 ∧ _
        rcases Nat.lt_or_ge oj n with holt | hoge
        · obtain ⟨t2, hgo, ht2lt, hmk, hdat, p2, hp2a, hp2b, hp2c⟩ :=
            c3 oj holt hused
          have htne : t ≠ t2 := by
            intro hx
            rw [hx] at htempty
            rw [htempty] at hmk
            omega
          refine ⟨t2, by rw [if_neg (by omega)]; exact hgo, ht2lt, ?_, ?_,
            p2, hp2a, hp2b, ?_⟩
          · rw [hstepeq2]
            show ((rehashPrefix ht s2 n).table.set t (ht.table.getD n 0)).getD t2 0 =
              ht.table.getD oj 0
            rw [getD_set_ne _ _ _ _ _ htne]
            exact hmk
          · rw [hstepeq2]
            show ((rehashPrefix ht s2 n).data.set t
              (ht.data.getD n none)).getD t2 none = ht.data.getD oj none
            rw [getD_set_ne _ _ _ _ _ htne]
            exact hdat
          · intro m hmp
            rw [hstepeq2]
            show ((rehashPrefix ht s2 n).table.set t (ht.table.getD n 0)).getD
              (probeSpec s2 (ht_start s2 (ht.table.getD oj 0)) m) 0 ≠ 0
            by_cases hpm : probeSpec s2 (ht_start s2 (ht.table.getD oj 0)) m = t
            · rw [hpm, getD_set_self _ _ _ _ (by rw [e3]; exact ht1)]
              omega
            · rw [getD_set_ne _ _ _ _ _ (fun hx => hpm hx.symm)]
              exact hp2c m hmp
        · have hojn : oj = n := by omega
          rw [hojn]
          refine ⟨t, by rw [if_pos rfl], ht1, ?_, ?_, p, hp1, hpt, ?_⟩
          · rw [hstepeq2]
            show ((rehashPrefix ht s2 n).table.set t (ht.table.getD n 0)).getD t 0 =
              ht.table.getD n 0
            rw [getD_set_self _ _ _ _ (by rw [e3]; exact ht1)]
          · rw [hstepeq2]
            show ((rehashPrefix ht s2 n).data.set t
              (ht.data.getD n none)).getD t none = ht.data.getD n none
            rw [getD_set_self _ _ _ _ (by rw [e4]; exact ht1)]
          · intro m hmp
            rw [hstepeq2]
            show ((rehashPrefix ht s2 n).table.set t (ht.table.getD n 0)).getD
              (probeSpec s2 (ht_start s2 (ht.table.getD n 0)) m) 0 ≠ 0
            by_cases hpm : probeSpec s2 (ht_start s2 (ht.table.getD n 0)) m = t
            · rw [hpm, getD_set_self _ _ _ _ (by rw [e3]; exact ht1)]
              omega
            · rw [getD_set_ne _ _ _ _ _ (fun hx => hpm hx.symm)]
              exact hreach2 m hmp
      · intro oj1 oj2 t2 ha hb
        have ha2 : (if oj1 = n then some t else g oj1) = some t2 := ha
        have hb2 : (if oj2 = n then some t else g oj2) = some t2 := hb
        by_cases h1 : oj1 = n
        · by_cases h2 : oj2 = n
          · rw [h1, h2]
          · rw [if_pos h1] at ha2
            rw [if_neg h2] at hb2
            obtain ⟨hlt2, hused2⟩ := hgsome oj2 t2 hb2
            obtain ⟨t3, hgo3, _, hmk3, _⟩ := c3 oj2 hlt2 hused2
            rw [hb2] at hgo3
            have ht3 : t3 = t2 := Option.some.inj hgo3.symm
            have ht2t : t2 = t := Option.some.inj ha2.symm
            rw [ht3, ht2t] at hmk3
            rw [htempty] at hmk3
            omega
        · by_cases h2 : oj2 = n
          · rw [if_neg h1] at ha2
            rw [if_pos h2] at hb2
            obtain ⟨hlt1, hused1⟩ := hgsome oj1 t2 ha2
            obtain ⟨t3, hgo3, _, hmk3, _⟩ := c3 oj1 hlt1 hused1
            rw [ha2] at hgo3
            have ht3 : t3 = t2 := Option.some.inj hgo3.symm
            have ht2t : t2 = t := Option.some.inj hb2.symm
            rw [ht3, ht2t] at hmk3
            rw [htempty] at hmk3
            omega
          · rw [if_neg h1] at ha2
            rw [if_neg h2] at hb2
            exact c4 oj1 oj2 t2 ha2 hb2
      · intro t2 hlt2 hused2
        rw [hstepeq2] at hused2
        have hused2b : 2 ≤
            ((rehashPrefix ht s2 n).table.set t (ht.table.getD n 0)).getD t2 0 :=
          hused2
        by_cases htt : t2 = t
        · refine ⟨n, by omega, ?_⟩
          show (if n = n then some t else g n) = some t2
          rw [if_pos rfl, htt]
        · have hused3 : 2 ≤ (rehashPrefix ht s2 n).table.getD t2 0 := by
            rw [getD_set_ne _ _ _ _ _ (fun hx => htt hx.symm)] at hused2b
            exact hused2b
          obtain ⟨oj, hojlt, hgoj⟩ := c5 t2 hlt2 hused3
          refine ⟨oj, by omega, ?_⟩
          show (if oj = n then some t else g oj) = some t2
          rw [if_neg (by omega)]
          exact hgoj
    · -- slot n is not USED: the step is the identity
      have hstepeq2 : rehashPrefix ht s2 (n + 1) = rehashPrefix ht s2 n := by
        rw [hstepeq]
        unfold ht_rehashStep
        rw [if_neg hg]
      refine ⟨g, ?_, c2, ?_, c4, ?_⟩
      · intro oj hoj
        exact c1 oj (by omega)
      · intro oj hoj hused
        have holt : oj < n := by
          rcases Nat.lt_or_ge oj n with h5 | h5
          · exact h5
          · have h6 : oj = n := by omega
            rw [h6] at hused
            exact absurd hused hg
        obtain ⟨t2, hgo, ht2lt, hmk, hdat, p2, hp2a, hp2b, hp2c⟩ := c3 oj holt hused
        rw [hstepeq2]
        exact ⟨t2, hgo, ht2lt, hmk, hdat, p2, hp2a, hp2b, hp2c⟩
      · intro t2 hlt2 hused2
        rw [hstepeq2] at hused2
        obtain ⟨oj, hojlt, hgoj⟩ := c5 t2 hlt2 hused2
        exact ⟨oj, by omega, hgoj⟩

theorem FullInv_rehash (ht : Htable κ α) (ps : List (κ × α)) (s2 : Nat)
    (hinv : FullInv ht ps) (hs2 : HTABLE_SHIFT_MIN ≤ s2)
    (hlc : ht.len ≤ HTABLE_CAP s2) :
    FullInv (htable_rehash ht s2 true).1 ps := by
  obtain ⟨hA, slots, hnd, hf2, hsurj⟩ := hinv
  have hs2b : 2 ≤ s2 := by
    unfold HTABLE_SHIFT_MIN at hs2
    omega
  obtain ⟨g1A, g2A, g3A, g4A, g5A, g6A, g7A⟩ :=
    htable_rehash_alive ht s2 hs2 (valid_rehash_count ht (Or.inr hA)) hlc
  obtain ⟨g, c1, c2, c3, c4, c5⟩ :=
    rehash_fold_slots ht s2 hs2b hA hlc (2 ^ ht.shift) (Nat.le_refl _)
  have hm1 : (ht.mask + 1).toNat = 2 ^ ht.shift := by
    rw [hA.hmask]
    have h2 : (0 : Int) < 2 ^ ht.shift := pow_pos (by norm_num) _
    have h4 : ((2 : Int) ^ ht.shift) = ((2 ^ ht.shift : Nat) : Int) := by
      push_cast
      ring
    omega
  have htb : (htable_rehash ht s2 true).1.table =
      (rehashPrefix ht s2 (2 ^ ht.shift)).table := by
    show ((List.range (ht.mask + 1).toNat).foldl (ht_rehashStep ht)
      (ht_rehashInit ht s2)).table = _
    rw [hm1]
    rfl
  have hdb : (htable_rehash ht s2 true).1.data =
      (rehashPrefix ht s2 (2 ^ ht.shift)).data := by
    show ((List.range (ht.mask + 1).toNat).foldl (ht_rehashStep ht)
      (ht_rehashInit ht s2)).data = _
    rw [hm1]
    rfl
  have hhash : ∀ k2 : κ, ht_hashof (htable_rehash ht s2 true).1 k2 =
      ht_hashof ht k2 := by
    intro k2
    unfold ht_hashof
    rw [g6A, g7A]
  refine ⟨g1A, slots.map (fun oj => (g oj).getD 0), ?_, ?_, ?_⟩
  · apply List.Nodup.map_on ?_ hnd
    intro x hx y hy hxy
    obtain ⟨qx, _, hqxst⟩ := forall2_exists_left_of_mem hf2 x hx
    obtain ⟨qy, _, hqyst⟩ := forall2_exists_left_of_mem hf2 y hy
    have hxused : 2 ≤ ht.table.getD x 0 := by
      rw [hqxst.2.1]
      exact ht_hashof_ge_two ht qx.1
    have hyused : 2 ≤ ht.table.getD y 0 := by
      rw [hqyst.2.1]
      exact ht_hashof_ge_two ht qy.1
    obtain ⟨tx, hgx, _⟩ := c3 x hqxst.1 hxused
    obtain ⟨ty, hgy, _⟩ := c3 y hqyst.1 hyused
    rw [hgx, hgy] at hxy
    simp only [Option.getD_some] at hxy
    rw [← hxy] at hgy
    exact c4 x y tx hgx hgy
  · rw [List.forall₂_map_right_iff]
    refine hf2.imp ?_
    intro q2 oj hst
    obtain ⟨hojlt, hojmk, hojrec, p0, hp0a, hp0b, hp0c⟩ := hst
    have hused : 2 ≤ ht.table.getD oj 0 := by
      rw [hojmk]
      exact ht_hashof_ge_two ht q2.1
    obtain ⟨t2, hgo, ht2lt, hmkeq, hdateq, p, hpa, hpb, hpc⟩ := c3 oj hojlt hused
    have hφ : (g oj).getD 0 = t2 := by
      rw [hgo]
      rfl
    rw [hφ]
    refine ⟨?_, ?_, ?_, p, ?_, ?_, ?_⟩
    · rw [g2A]
      exact ht2lt
    · rw [htb, hmkeq, hhash]
      exact hojmk
    · rw [hdb, hdateq]
      exact hojrec
    · rw [g2A]
      exact hpa
    · rw [hhash, g2A, ← hojmk]
      exact hpb
    · intro m hmp
      rw [hhash, g2A, ← hojmk, htb]
      exact hpc m hmp
  · intro i hi hmk
    rw [g2A] at hi
    rw [htb] at hmk
    obtain ⟨oj, hojn, hgoj⟩ := c5 i hi hmk
    have hused : 2 ≤ ht.table.getD oj 0 := by
      by_contra hno
      rw [c2 oj hno] at hgoj
      exact Option.noConfusion hgoj
    have hojmem : oj ∈ slots := hsurj oj hojn hused
    refine List.mem_map.mpr ⟨oj, hojmem, ?_⟩
    rw [hgoj]
    rfl

theorem goodEntries_snoc_fresh (hasher : HtableInterface κ α)
    (ps : List (κ × α)) (k : κ) (e : α)
    (hg : GoodEntries hasher (ps ++ [(k, e)])) :
    ∀ q ∈ ps, hasher.comp k q.2 = false := by
  intro q hq
  have hp := hg.2
  rw [List.pairwise_append] at hp
  exact (hp.2.2 q hq (k, e) (List.mem_singleton_self _)).2

theorem htable_enter_eq_of_raw (ht : Htable κ α) (k : κ) (e : α) (ok : Bool)
    (hcomp : ht.hasher.comp k e = true)
    (st : Htable κ α) (t : Nat)
    (hraw : htable_enter_raw ht k ok = (st, EnterRes.inserted t)) :
    htable_enter ht k e ok =
      ({ st with data := st.data.set t (some e) }, EnterRes.inserted t) := by
  unfold htable_enter
  rw [if_pos hcomp, hraw]

theorem FullInvE_enter (ht : Htable κ α) (ps : List (κ × α)) (k : κ) (e : α)
    (hIE : (EmptyState ht ∧ ps = []) ∨ FullInv ht ps)
    (hgood : GoodEntries ht.hasher (ps ++ [(k, e)])) :
    FullInv (htable_enter ht k e true).1 (ps ++ [(k, e)]) ∧
    (htable_enter ht k e true).1.hasher = ht.hasher := by
  have hcomp : ht.hasher.comp k e = true :=
    hgood.1 (k, e) (List.mem_append_right _ (List.mem_singleton_self _))
  have hv : HtValid ht := by
    rcases hIE with ⟨hE, _⟩ | hFull
    · exact Or.inl hE
    · exact Or.inr hFull.1
  have hmain : ∃ ht2, htable_enter_raw ht k true = ht_enterProbe ht2 k ∧
      FullInv ht2 ps ∧ 0 < ht2.cap ∧ ht2.hasher = ht.hasher := by
    by_cases hc : ht.cap = 0
    · have hsge := valid_shift_ge ht hv
      have hlcap := valid_len_le_cap ht hv
      have hsle : ht.shift ≤ ht.shift +
          (if HTABLE_CAP ht.shift / 2 < ht.len then 1 else 0) := by omega
      have hlc2 : ht.len ≤ HTABLE_CAP (ht.shift +
          (if HTABLE_CAP ht.shift / 2 < ht.len then 1 else 0)) :=
        le_trans hlcap (HTABLE_CAP_mono hsle)
      obtain ⟨g1A, g2A, g3A, g4A, g5A, g6A, g7A⟩ := htable_rehash_alive ht
        (ht.shift + (if HTABLE_CAP ht.shift / 2 < ht.len then 1 else 0))
        (by omega) (valid_rehash_count ht hv) hlc2
      have hlt : ht.len < HTABLE_CAP (ht.shift +
          (if HTABLE_CAP ht.shift / 2 < ht.len then 1 else 0)) := by
        by_cases hcond : HTABLE_CAP ht.shift / 2 < ht.len
        · rw [if_pos hcond]
          have h9 := HTABLE_CAP_double ht.shift (by
            unfold HTABLE_SHIFT_MIN at hsge
            omega)
          have h10 := HTABLE_CAP_pos ht.shift
          omega
        · rw [if_neg hcond, Nat.add_zero]
          have h9 := HTABLE_CAP_pos ht.shift
          omega
      refine ⟨(htable_rehash ht
        (ht.shift + (if HTABLE_CAP ht.shift / 2 < ht.len then 1 else 0))
        true).1, ?_, ?_, ?_, g7A⟩
      · unfold htable_enter_raw
        rw [if_pos hc]
        rfl
      · rcases hIE with ⟨hE, hps⟩ | hFull
        · subst hps
          apply FullInv_nil_of_noUsed _ g1A
          rw [g5A, hE.2.2.1]
        · exact FullInv_rehash ht ps _ hFull (by omega) hlc2
      · have hcapeq : (htable_rehash ht
            (ht.shift + (if HTABLE_CAP ht.shift / 2 < ht.len then 1 else 0))
            true).1.cap =
            (HTABLE_CAP (ht.shift +
              (if HTABLE_CAP ht.shift / 2 < ht.len then 1 else 0)) : Int) -
            (ht.len : Int) := rfl
        rw [hcapeq]
        omega
    · have hFull : FullInv ht ps := by
        rcases hIE with ⟨hE, _⟩ | hFull
        · exact absurd hE.2.2.2.1 hc
        · exact hFull
      refine ⟨ht, by unfold htable_enter_raw; rw [if_neg hc], hFull, ?_, rfl⟩
      have := hFull.1.hcapnn
      omega
  obtain ⟨ht2, hraw, hFull2, hcap2, hhasher2⟩ := hmain
  have hgood2 : GoodEntries ht2.hasher (ps ++ [(k, e)]) := by
    rw [hhasher2]
    exact hgood
  have hfr : ∀ q ∈ ps, ht2.hasher.comp k q.2 = false :=
    goodEntries_snoc_fresh ht2.hasher ps k e hgood2
  have hnm := no_isequal_of_fresh ht2 ps k hFull2 hfr
  obtain ⟨t, hres2, hFullFinal, hhp⟩ :=
    FullInv_enterProbe_fresh ht2 ps k e hFull2 hcap2 hnm
  have hraw2 : htable_enter_raw ht k true =
      ((ht_enterProbe ht2 k).1, EnterRes.inserted t) := by
    rw [hraw, ← hres2]
  have henter := htable_enter_eq_of_raw ht k e true hcomp _ t hraw2
  rw [henter]
  refine ⟨hFullFinal, ?_⟩
  show (ht_enterProbe ht2 k).1.hasher = ht.hasher
  rw [hhp]
  exact hhasher2

theorem FullInvE_insertAll (hasher : HtableInterface κ α) :
    ∀ (ps2 ps1 : List (κ × α)) (ht : Htable κ α),
      ht.hasher = hasher →
      ((EmptyState ht ∧ ps1 = []) ∨ FullInv ht ps1) →
      GoodEntries hasher (ps1 ++ ps2) →
      (insertAll ht ps2).hasher = hasher ∧
      ((EmptyState (insertAll ht ps2) ∧ ps1 ++ ps2 = []) ∨
        FullInv (insertAll ht ps2) (ps1 ++ ps2)) := by
  intro ps2
  induction ps2 with
  | nil =>
    intro ps1 ht hh hIE _
    rw [List.append_nil]
    exact ⟨hh, hIE⟩
  | cons q ps2' ih =>
    intro ps1 ht hh hIE hg
    have hsubl : (ps1 ++ [q]).Sublist (ps1 ++ q :: ps2') :=
      List.Sublist.append_left
        (List.Sublist.cons₂ q (List.nil_sublist ps2')) ps1
    have hsub : GoodEntries hasher (ps1 ++ [q]) := by
      constructor
      · intro r hr
        apply hg.1
        rcases List.mem_append.mp hr with h1 | h1
        · exact List.mem_append.mpr (Or.inl h1)
        · rw [List.mem_singleton] at h1
          rw [h1]
          exact List.mem_append.mpr (Or.inr (List.mem_cons_self _ _))
      · exact List.Pairwise.sublist hsubl hg.2
    have hgood1 : GoodEntries ht.hasher (ps1 ++ [q]) := by
      rw [hh]
      exact hsub
    obtain ⟨hFull2, hh2⟩ := FullInvE_enter ht ps1 q.1 q.2 hIE hgood1
    have hstep : insertAll ht (q :: ps2') =
        insertAll (htable_enter ht q.1 q.2 true).1 ps2' := rfl
    have hlist : ps1 ++ q :: ps2' = (ps1 ++ [q]) ++ ps2' := by
      rw [List.append_assoc]
      rfl
    rw [hstep, hlist]
    exact ih (ps1 ++ [q]) (htable_enter ht q.1 q.2 true).1
      (hh2.trans hh) (Or.inr hFull2) (by rw [← hlist]; exact hg)

/-- C1: for every batch of insertions of pairwise-distinct keys (through the
comparator) via htable_enter, a subsequent htable_find on each inserted key
returns a pointer to a record equal to the record that was inserted, and
after htable_delete of that key, htable_find on it returns NULL (not-found). -/
theorem claim_C1 {κ α : Type} (seed : Nat) (hasher : HtableInterface κ α)
    (ps : List (κ × α)) (hgood : GoodEntries hasher ps) :
    ∀ q ∈ ps, ∃ i,
      htable_find (insertAll (htable_create seed hasher) ps) q.1 =
        FindRes.found i ∧
      (insertAll (htable_create seed hasher) ps).data.getD i none = some q.2 ∧
      htable_find
        (htable_delete (insertAll (htable_create seed hasher) ps) q.1).1 q.1 =
        FindRes.nofind := by
  intro q hq
  have hE : EmptyState (htable_create seed hasher) :=
    ⟨rfl, rfl, rfl, rfl, rfl, rfl⟩
  obtain ⟨hh, hIE⟩ := FullInvE_insertAll hasher ps [] (htable_create seed hasher)
    rfl (Or.inl ⟨hE, rfl⟩) (by rw [List.nil_append]; exact hgood)
  rw [List.nil_append] at hIE
  have hFull : FullInv (insertAll (htable_create seed hasher) ps) ps := by
    rcases hIE with ⟨_, hps⟩ | hFull
    · rw [hps] at hq
      exact absurd hq (List.not_mem_nil q)
    · exact hFull
  have hg2 : GoodEntries (insertAll (htable_create seed hasher) ps).hasher ps := by
    rw [hh]
    exact hgood
  obtain ⟨n, hn, hqn⟩ := List.mem_iff_getElem.mp hq
  obtain ⟨i, hfind, hdata⟩ :=
    FullInv_find_found (insertAll (htable_create seed hasher) ps) ps hFull hg2 n hn
  have hdel :=
    FullInv_delete_find (insertAll (htable_create seed hasher) ps) ps hFull hg2 n hn
  rw [hqn] at hfind hdata hdel
  exact ⟨i, hfind, hdata, hdel⟩

/-- Witness for C1: inserting the two distinct keys 10 and 20 into a fresh
table, finding key 10 returns its record and, after deleting it, nofind. -/
theorem claim_C1_witness :
    GoodEntries demoIface [((10 : Nat), (10 : Nat)), (20, 20)] ∧
    ((10 : Nat), (10 : Nat)) ∈ [((10 : Nat), (10 : Nat)), (20, 20)] ∧
    (∃ i,
      htable_find (insertAll (htable_create 0 demoIface)
        [((10 : Nat), (10 : Nat)), (20, 20)]) 10 = FindRes.found i ∧
      (insertAll (htable_create 0 demoIface)
        [((10 : Nat), (10 : Nat)), (20, 20)]).data.getD i none = some 10 ∧
      htable_find (htable_delete (insertAll (htable_create 0 demoIface)
        [((10 : Nat), (10 : Nat)), (20, 20)]) 10).1 10 = FindRes.nofind) :=
  ⟨⟨by decide, List.Pairwise.cons (by decide)
      (List.Pairwise.cons (by decide) List.Pairwise.nil)⟩,
   by decide,
   claim_C1 0 demoIface [((10 : Nat), (10 : Nat)), (20, 20)]
     ⟨by decide, List.Pairwise.cons (by decide)
       (List.Pairwise.cons (by decide) List.Pairwise.nil)⟩
     (10, 10) (by decide)⟩
